import Mathlib

/-!
Formal model of the core of the `obsidian-gm-vault-exporter` plugin.

The development shallowly embeds the plugin's JavaScript sources:

* `src/renderers/MarkdownRenderer.js` — slug generation (`_slugify`),
  wiki-link rewriting (`_configureWikiLinks`), HTML escaping
  (`_escapeHtml`), presentational class injection (`_addNotionClasses`),
  relative-to-absolute URL rewriting (`_convertRelativeUrlsToAbsolute`);
* `src/renderers/GMVaultJSONBuilder.js` — the domain-tree to JSON exporter;
* `src/parsers/SessionParser.js` — the folder-hierarchy tree parser;
* the HTTP route handlers of `PluginController` (documented in
  `ARCHITECTURE.md`).

Strings are modelled as `List Char` in the computational cores, with
`String` wrappers.  JS regular-expression constructs are embedded as
specialised recursive scanners implementing the exact semantics
(greedy/lazy quantifiers, negative lookahead, backtracking order) of the
concrete regex literals appearing in the source.  Character classes are
taken at their ASCII meaning (the regexes in the source are written
without the `u` flag and all class-relevant characters are ASCII).
-/

namespace GMVault

/-! ### Character classes (JS regex semantics, ASCII range)

Codes used below: 9 = tab, 10 = LF, 11 = VT, 12 = FF, 13 = CR, 32 = space,
45 = `-`, 48–57 = `0-9`, 65–90 = `A-Z`, 95 = `_`, 97–122 = `a-z`. -/

/-- The JS `\s` whitespace class (its ASCII members). -/
def isJsWs (c : Char) : Bool :=
  c.toNat = 32 || c.toNat = 9 || c.toNat = 10 || c.toNat = 13 ||
    c.toNat = 11 || c.toNat = 12

/-- The JS `\w` word class `[A-Za-z0-9_]`. -/
def isWordChar (c : Char) : Bool :=
  (97 ≤ c.toNat && c.toNat ≤ 122) || (65 ≤ c.toNat && c.toNat ≤ 90) ||
    (48 ≤ c.toNat && c.toNat ≤ 57) || c.toNat = 95

/-- `String.prototype.toLowerCase` on an ASCII character: `A`–`Z` is
shifted down by 32, everything else is returned unchanged. -/
def jsLower (c : Char) : Char :=
  if 65 ≤ c.toNat ∧ c.toNat ≤ 90 then Char.ofNat (c.toNat + 32) else c

/-- Drop matching characters from the end of a list (helper for the
two-sided trims below). -/
def dropEnd (p : Char → Bool) (l : List Char) : List Char :=
  (l.reverse.dropWhile p).reverse

/-- `String.prototype.trim`: whitespace removed from both ends. -/
def jsTrim (l : List Char) : List Char :=
  dropEnd isJsWs (l.dropWhile isJsWs)

/-! ### `MarkdownRenderer._slugify` (MarkdownRenderer.js, lines 257–264)

```js
text.toLowerCase().trim()
    .replace(/[^\w\s-]/g, '')
    .replace(/[\s_-]+/g, '-')
    .replace(/^-+|-+$/g, '');
```
-/

/-- Kept by `.replace(/[^\w\s-]/g, '')`: word characters, whitespace
and hyphens survive, everything else is deleted. -/
def keepSlugChar (c : Char) : Bool :=
  isWordChar c || isJsWs c || c.toNat = 45

/-- The `[\s_-]` class of the run-collapsing replace. -/
def isCollapseChar (c : Char) : Bool :=
  isJsWs c || c.toNat = 95 || c.toNat = 45

/-- The hyphen class of the final `^-+|-+$` trim. -/
def isDash (c : Char) : Bool := c.toNat = 45

/-- `.replace(/[\s_-]+/g, '-')`: each maximal run of collapse characters
becomes a single `-`.  The boolean state records whether the scanner is
inside a run whose `-` has already been emitted. -/
def collapseGo : Bool → List Char → List Char
  | _, [] => []
  | inRun, c :: rest =>
    if isCollapseChar c then
      if inRun then collapseGo true rest
      else '-' :: collapseGo true rest
    else c :: collapseGo false rest

/-- `.replace(/^-+|-+$/g, '')`: leading and trailing hyphen runs removed. -/
def trimDashes (l : List Char) : List Char :=
  dropEnd isDash (l.dropWhile isDash)

/-- The full slug pipeline on character lists. -/
def slugifyL (l : List Char) : List Char :=
  trimDashes (collapseGo false (List.filter keepSlugChar (jsTrim (l.map jsLower))))

/-- `MarkdownRenderer._slugify` / the `slugify` utility used by
`SessionParser` (the spec's §4.1 contract specifies the identical
transformation for both). -/
def slugify (s : String) : String := ⟨slugifyL s.data⟩


/-! ### Derived character predicates used to characterise finished slugs -/

/-- Lower-case ASCII letters and digits: the only non-hyphen characters a
finished slug can contain. -/
def isLowerAlnum (c : Char) : Bool :=
  (97 ≤ c.toNat && c.toNat ≤ 122) || (48 ≤ c.toNat && c.toNat ≤ 57)

/-- No two adjacent hyphens. -/
def NoDD (l : List Char) : Prop :=
  List.Chain' (fun a b => ¬(a = '-' ∧ b = '-')) l

/-- Characterisation of fixed points of the slug pipeline. -/
def SlugOk (l : List Char) : Prop :=
  (∀ c ∈ l, isLowerAlnum c = true ∨ c = '-') ∧ NoDD l ∧
    (∀ c, l.head? = some c → c ≠ '-') ∧ (∀ c, l.getLast? = some c → c ≠ '-')


/-! ### `MarkdownRenderer._escapeHtml` (lines 394–403)

`text.replace(/[&<>"']/g, m => map[m])` with the five XSS-relevant
entities. -/

/-- Entity expansion of a single character. -/
def escapeChar (c : Char) : List Char :=
  if c.toNat = 38 then "&amp;".data
  else if c.toNat = 60 then "&lt;".data
  else if c.toNat = 62 then "&gt;".data
  else if c.toNat = 34 then "&quot;".data
  else if c.toNat = 39 then "&#039;".data
  else [c]

/-- `MarkdownRenderer._escapeHtml`. -/
def escapeHtml (l : List Char) : List Char := l.flatMap escapeChar

/-! ### `MarkdownRenderer._configureWikiLinks` (lines 214–248)

The overridden `text` renderer rule: if `/\[\[([^\]]+)\]\]/g` matches the
token content, every match is replaced by an anchor; the link target and
display text come from splitting the inner text on `|` and trimming.  The
anchor href is `{baseUrl}/pages/{slug}` when a base URL is configured and
`/pages/{slug}` otherwise. -/

/-- Split the inner text `linkContent` of a wiki link:
`linkContent.includes('|') ? linkContent.split('|').map(s => s.trim())
: [linkContent.trim(), linkContent.trim()]` (destructured to the first
two elements). -/
def wikiParts (inner : List Char) : List Char × List Char :=
  if inner.contains '|' then
    let parts := inner.splitOn '|'
    (jsTrim (parts.getD 0 []), jsTrim (parts.getD 1 []))
  else (jsTrim inner, jsTrim inner)

/-- Attempt to match `([^\]]+)\]\]` immediately after an opening `[[`;
returns the inner text (the remainder then starts
`inner.length + 2` characters further on). -/
def wikiOpenMatch (l : List Char) : Option (List Char) :=
  let inner := l.takeWhile (fun c => c.toNat ≠ 93)
  if inner.isEmpty then none
  else
    match l.drop inner.length with
    | ']' :: ']' :: _ => some inner
    | _ => none

/-- The HTML anchor produced for one wiki link. -/
def wikiAnchor (baseUrl : Option (List Char)) (inner : List Char) : List Char :=
  let parts := wikiParts inner
  let slug := slugifyL parts.1
  let href :=
    match baseUrl with
    | some b => b ++ "/pages/".data ++ slug
    | none => "/pages/".data ++ slug
  "<a href=\"".data ++ href ++ "\">".data ++ escapeHtml parts.2 ++ "</a>".data

/-- `content.replace(/\[\[([^\]]+)\]\]/g, ...)`: global left-to-right
replacement of wiki links by anchors. -/
def replaceWikiLinks (b : Option (List Char)) : List Char → List Char
  | [] => []
  | '[' :: '[' :: rest =>
    match wikiOpenMatch rest with
    | some inner =>
      wikiAnchor b inner ++ replaceWikiLinks b (rest.drop (inner.length + 2))
    | none => '[' :: replaceWikiLinks b ('[' :: rest)
  | c :: rest => c :: replaceWikiLinks b rest
termination_by l => l.length
decreasing_by
  all_goals try simp only [List.length_drop, List.length_cons]
  all_goals omega

/-- `wikiLinkRegex.test(content)`: does the wiki-link regex match
anywhere? -/
def hasWikiLink : List Char → Bool
  | [] => false
  | '[' :: '[' :: rest => (wikiOpenMatch rest).isSome || hasWikiLink ('[' :: rest)
  | _ :: rest => hasWikiLink rest
termination_by l => l.length
decreasing_by
  all_goals try simp only [List.length_drop, List.length_cons]
  all_goals omega

/-- The markdown-it default `text` rule (external collaborator): it
escapes `& < > "` in the token content.  Only used on the no-match
branch. -/
def mdEscapeChar (c : Char) : List Char :=
  if c.toNat = 38 then "&amp;".data
  else if c.toNat = 60 then "&lt;".data
  else if c.toNat = 62 then "&gt;".data
  else if c.toNat = 34 then "&quot;".data
  else [c]

/-- The overridden `md.renderer.rules.text` of `_configureWikiLinks`:
replace wiki links when the regex tests positive, otherwise fall through
to the default renderer. -/
def renderTextToken (b : Option (List Char)) (content : List Char) : List Char :=
  if hasWikiLink content then replaceWikiLinks b content
  else content.flatMap mdEscapeChar

/-! ### Domain models (`src/models/Session.js`, `Category.js`, `Page.js`)

The model classes are plain containers: `Page(name, slug, blockTypes)`;
`Category(name)` with `addPage`/`addCategory` pushing onto its `pages`/
`categories` arrays; `Session(name)` with `addCategory`. -/

structure Page where
  name : String
  slug : String
  blockTypes : List String
deriving DecidableEq, Repr

inductive Category where
  | mk (name : String) (pages : List Page) (categories : List Category)

def Category.name : Category → String
  | .mk n _ _ => n

def Category.pages : Category → List Page
  | .mk _ ps _ => ps

def Category.categories : Category → List Category
  | .mk _ _ cs => cs

structure Session where
  name : String
  categories : List Category

/-! ### `GMVaultJSONBuilder` (GMVaultJSONBuilder.js, lines 425–506)

The wire JSON is modelled by an explicit JSON value type in which object
fields keep their insertion order. -/

inductive JValue where
  | str (s : String)
  | arr (elems : List JValue)
  | obj (fields : List (String × JValue))

/-- Field lookup on an object (`none` on other values). -/
def JValue.lookup (j : JValue) (k : String) : Option JValue :=
  match j with
  | .obj fields => List.lookup k fields
  | _ => none

/-- Key presence. -/
def JValue.hasKey (j : JValue) (k : String) : Bool :=
  (j.lookup k).isSome

/-- `GMVaultJSONBuilder` holds the mutable `baseUrl`. -/
structure GMVaultJSONBuilder where
  baseUrl : String

/-- `new GMVaultJSONBuilder(baseUrl = 'http://localhost:3000')`. -/
def GMVaultJSONBuilder.init : GMVaultJSONBuilder := ⟨"http://localhost:3000"⟩

/-- `setBaseUrl(baseUrl)`. -/
def GMVaultJSONBuilder.setBaseUrl (_ : GMVaultJSONBuilder) (u : String) :
    GMVaultJSONBuilder := ⟨u⟩

/-- `_buildPageJSON(page)`: `{ name, url: `${baseUrl}/pages/${slug}` }`
plus `blockTypes` only when non-empty. -/
def buildPageJSON (b : GMVaultJSONBuilder) (p : Page) : JValue :=
  JValue.obj
    ([("name", JValue.str p.name),
      ("url", JValue.str (b.baseUrl ++ "/pages/" ++ p.slug))] ++
      (if p.blockTypes.length > 0 then
        [("blockTypes", JValue.arr (p.blockTypes.map JValue.str))]
      else []))

/-- `_buildCategoryJSON(category)`: `{ name, pages, categories }` with the
`pages`/`categories` fields deleted again when their arrays are empty. -/
def buildCategoryJSON (b : GMVaultJSONBuilder) : Category → JValue
  | .mk n ps cs =>
    JValue.obj
      ([("name", JValue.str n)] ++
        (if ps.length = 0 then []
         else [("pages", JValue.arr (ps.map (buildPageJSON b)))]) ++
        (if cs.length = 0 then []
         else [("categories",
           JValue.arr (cs.attach.map (fun x => buildCategoryJSON b x.1)))]))
termination_by c => sizeOf c
decreasing_by
  have h1 := List.sizeOf_lt_of_mem x.2
  simp only [Category.mk.sizeOf_spec]
  omega

/-- `buildJSON(session)`. -/
def buildJSON (b : GMVaultJSONBuilder) (s : Session) : JValue :=
  JValue.obj
    [("categories", JValue.arr (s.categories.map (buildCategoryJSON b)))]


/-! ### Vault model for `SessionParser` (SessionParser.js)

`TFile` exposes `name` (`basename.extension`), `basename`, `extension`
and `path`; `vault.read(file)` returns the file text or rejects with an
I/O error (modelled by `content = none`).  `TFolder` exposes `name` and
`children`; the parser discriminates folders from files by the presence
of `children` (duck typing), modelled by the two constructors. -/

structure FileNode where
  name : String
  basename : String
  extension : String
  path : String
  content : Option String
deriving DecidableEq, Repr

inductive VaultNode where
  | file (f : FileNode)
  | folder (name : String) (children : List VaultNode)

/-- `content.split('\n')` of the JS string `split`: every `\n` separates
lines; the empty string yields one empty line. -/
def splitLines : List Char → List (List Char)
  | [] => [[]]
  | c :: rest =>
    if c.toNat = 10 then [] :: splitLines rest
    else
      match splitLines rest with
      | [] => [[c]]
      | l :: ls => (c :: l) :: ls

/-- The characters JS `.` refuses to match: the line terminators LF,
CR, U+2028 and U+2029 (`.` matches every other character). -/
def isLineTerm (c : Char) : Bool :=
  c.toNat = 10 || c.toNat = 13 || c.toNat = 8232 || c.toNat = 8233

/-- Match of `/^#\s+(.+)$/` against one line: a `#` (code 35), at least
one whitespace character, then a capture `(.+)$` that must run to the
very end of the line and may not contain a line terminator (JS `.`
excludes them, so a CR-terminated line — every line of a CRLF file after
`split('\n')` — never matches).  The greedy `\s+` backs off only as far
as needed: the chosen whitespace length is `min wlen (length - 1)` (the
full run, unless the run reaches the end of the line, in which case one
character is left over for `+`), and backing off further cannot help
because shorter whitespace only extends the same capture to the left. -/
def h1Match (line : List Char) : Option (List Char)  :=
  match line with
  | [] => none
  | c :: rest =>
    if c.toNat = 35 then
      let wlen := (rest.takeWhile isJsWs).length
      let k := min wlen (rest.length - 1)
      if 1 ≤ k ∧ (rest.drop k).all (fun d => !isLineTerm d) then
        some (rest.drop k)
      else none
    else none

/-- Scan the lines of a file for the first top-level heading and return
its capture (shared by `_getRootCategoryName` and `_getPageName`). -/
def firstH1 (content : String) : Option (List Char) :=
  (splitLines content.data).findSome? h1Match

/-- `_getRootCategoryName(sessionFile)` (lines 73–88): read the entry
document — an I/O failure here is *not* caught and propagates out of
`parseSession` — and return the first `# `-heading capture, trimmed, or
else the file's base name. -/
def getRootCategoryName (f : FileNode) : Option String :=
  match f.content with
  | none => none
  | some content =>
    some
      (match firstH1 content with
       | some cap => String.mk (jsTrim cap)
       | none => f.basename)

/-- Attempt to match `([^\]|]+)(\|[^\]]+)?\]\]` immediately after `[[`:
the first capture runs to the first `|` or `]`; an optional `|`-alias
follows; then the closing `]]`.  Returns the first capture and the
number of characters consumed. -/
def nameWikiMatch (l : List Char) : Option (List Char × Nat) :=
  let g1 := l.takeWhile (fun c => c.toNat ≠ 93 && c.toNat ≠ 124)
  if g1.isEmpty then none
  else
    match l.drop g1.length with
    | ']' :: ']' :: _ => some (g1, g1.length + 2)
    | '|' :: r2 =>
      let g2 := r2.takeWhile (fun c => c.toNat ≠ 93)
      if g2.isEmpty then none
      else
        match r2.drop g2.length with
        | ']' :: ']' :: _ => some (g1, g1.length + 1 + g2.length + 2)
        | _ => none
    | _ => none

/-- `name.replace(/\[\[([^\]|]+)(\|[^\]]+)?\]\]/g, '$1')` (line 164):
every wiki-link token in a heading is replaced by its first capture —
the link target, i.e. the part *before* any `|` alias. -/
def stripWikiTokens : List Char → List Char
  | [] => []
  | '[' :: '[' :: rest =>
    match nameWikiMatch rest with
    | some (g1, n) => g1 ++ stripWikiTokens (rest.drop n)
    | none => '[' :: stripWikiTokens ('[' :: rest)
  | c :: rest => c :: stripWikiTokens rest
termination_by l => l.length
decreasing_by
  all_goals try simp only [List.length_drop, List.length_cons]
  all_goals omega

/-- `_getPageName(file)` (lines 152–174): read the file — catching any
I/O error — and return the first `# `-heading capture, trimmed and with
wiki tokens stripped; fall back to the base name when there is no
heading or the read failed. -/
def getPageName (f : FileNode) : String :=
  match f.content with
  | none => f.basename
  | some content =>
    match firstH1 content with
    | some cap => String.mk (stripWikiTokens (jsTrim cap))
    | none => f.basename

/-- The markdown-extension files among a folder's children, in order
(`child.children !== undefined` selects folders; otherwise
`child.extension === 'md'` selects files). -/
def mdFilesOf (children : List VaultNode) : List FileNode :=
  children.filterMap fun c =>
    match c with
    | .file f => if f.extension = "md" then some f else none
    | .folder _ _ => none

/-- The sub-folders among a folder's children, in order. -/
def subFoldersOf (children : List VaultNode) : List (String × List VaultNode) :=
  children.filterMap fun c =>
    match c with
    | .file _ => none
    | .folder n cs => some (n, cs)

/-- `files.sort((a, b) => a.name.localeCompare(b.name))`: the
locale-aware comparator is a parameter `cmp`; a stable sort places `a`
before `b` when `cmp a b ≤ 0`. -/
def fileLe (cmp : String → String → Int) (a b : FileNode) : Bool :=
  cmp a.name b.name ≤ 0

/-- `folders.sort((a, b) => a.name.localeCompare(b.name))`. -/
def folderLe (cmp : String → String → Int) (a b : String × List VaultNode) : Bool :=
  cmp a.1 b.1 ≤ 0

/-- The `Page` built for one file in `_scanFolder`:
`new Page(pageName, slugify(file.basename), [])`. -/
def pageOfFile (f : FileNode) : Page :=
  ⟨getPageName f, slugify f.basename, []⟩

/-- `_scanFolder(folder, category, sessionFile)` (lines 98–142): partition
the children into markdown files and folders, sort each partition by
name, append the files (except the entry document, recognised by path)
as pages and recurse into the folders as sub-categories. -/
def scanFolder (cmp : String → String → Int) (entryPath : String)
    (name : String) (children : List VaultNode) : Category :=
  let files := (mdFilesOf children).mergeSort (fileLe cmp)
  let folders := (subFoldersOf children).mergeSort (folderLe cmp)
  Category.mk name
    ((files.filter fun f => f.path ≠ entryPath).map pageOfFile)
    (folders.attach.map fun x => scanFolder cmp entryPath x.1.1 x.1.2)
termination_by sizeOf children
decreasing_by
  have h1 : x.1 ∈ subFoldersOf children :=
    (List.mergeSort_perm (subFoldersOf children) (folderLe cmp)).subset x.2
  rcases List.mem_filterMap.mp h1 with ⟨node, hnode, heq⟩
  cases node with
  | file f => simp at heq
  | folder n cs =>
    rw [Option.some_inj] at heq
    rw [← heq]
    have h2 := List.sizeOf_lt_of_mem hnode
    simp only [VaultNode.folder.sizeOf_spec] at h2
    have h3 : sizeOf cs < sizeOf children := by omega
    simpa using h3

/-- `parseSession(sessionFile)` (lines 40–63): a session named after the
entry document; with no parent folder the session is returned empty,
otherwise a single root category named by `_getRootCategoryName` is
filled by scanning the parent folder.  `none` models the uncaught
exception when reading the entry document fails. -/
def parseSession (cmp : String → String → Int) (entry : FileNode)
    (parent : Option (String × List VaultNode)) : Option Session :=
  match parent with
  | none => some ⟨entry.basename, []⟩
  | some (_, children) =>
    match getRootCategoryName entry with
    | none => none
    | some rootName =>
      some ⟨entry.basename, [scanFolder cmp entry.path rootName children]⟩

/-- All pages anywhere in a category tree. -/
def pagesInCategory : Category → List Page
  | .mk _ ps cs => ps ++ (cs.attach.map fun x => pagesInCategory x.1).flatten
termination_by c => sizeOf c
decreasing_by
  have h1 := List.sizeOf_lt_of_mem x.2
  simp only [Category.mk.sizeOf_spec]
  omega

/-- All markdown files anywhere under a list of vault nodes. -/
def mdFilesInTree : List VaultNode → List FileNode
  | [] => []
  | .file f :: rest =>
    (if f.extension = "md" then [f] else []) ++ mdFilesInTree rest
  | .folder _ cs :: rest => mdFilesInTree cs ++ mdFilesInTree rest


/-! ### The HTTP route handlers

Modelled from the spec: the `PluginController` module itself is not among
the sources; its `_registerRoutes` and `_findFileBySlug` are modelled
from the verbatim handler excerpts in `ARCHITECTURE.md` (lines 525–572
and 581–593) and §4.6/§7 of the specification. -/

/-- A response as produced by `ServerManager.sendJSON`/`sendHTML`. -/
inductive Body where
  | html (content : String)
  | json (j : JValue)

structure HttpResponse where
  status : Nat
  body : Body

/-- `String.prototype.toLowerCase` on a whole string (ASCII case map,
as for `jsLower`). -/
def jsLowerStr (s : String) : String := ⟨s.data.map jsLower⟩

/-- Modelled from the spec: `PluginController._findFileBySlug(slug)` —
scan `vault.getMarkdownFiles()` in order and return the first file whose
slugified base name equals the slug, or whose lower-cased base name
equals the slug literally. -/
def findFileBySlug (slug : String) (files : List FileNode) : Option FileNode :=
  files.find? fun f =>
    slugify f.basename == slug || jsLowerStr f.basename == slug

/-- Modelled from the spec: the `GET /gm-vault` handler of
`PluginController._registerRoutes` — with no selected session file the
handler answers 400 with an `error` field; otherwise the parsed session
is exported (an exception from parsing becomes a 500 `error` body via
the surrounding `try`/`catch`). -/
def gmVaultRoute (cmp : String → String → Int)
    (current : Option (FileNode × Option (String × List VaultNode)))
    (b : GMVaultJSONBuilder) : HttpResponse :=
  match current with
  | none =>
    ⟨400, .json (JValue.obj
      [("error", JValue.str "No hay página de sesión seleccionada")])⟩
  | some (entry, parent) =>
    match parseSession cmp entry parent with
    | none =>
      ⟨500, .json (JValue.obj [("error", JValue.str "Error al generar JSON")])⟩
    | some session => ⟨200, .json (buildJSON b session)⟩

/-- Modelled from the spec: the `GET /pages/:slug` handler — resolve the
slug via `_findFileBySlug`; no match answers 404 with an `error` field;
otherwise the file is read (a rejected read becomes a 500 via the
`catch`) and rendered to HTML by the markdown renderer, which is passed
as the collaborator `render`. -/
def pagesRoute (slug : String) (files : List FileNode)
    (render : String → String → String) : HttpResponse :=
  match findFileBySlug slug files with
  | none =>
    ⟨404, .json (JValue.obj
      [("error", JValue.str ("Página no encontrada: " ++ slug))])⟩
  | some f =>
    match f.content with
    | none =>
      ⟨500, .json (JValue.obj
        [("error", JValue.str "Error al renderizar página")])⟩
    | some md => ⟨200, .html (render md f.basename)⟩


/-! ### Shared scanners for the regex passes -/

/-- Case-insensitive prefix test (the `i` flag; ASCII case map). -/
def startsWithCI : List Char → List Char → Bool
  | [], _ => true
  | _ :: _, [] => false
  | p :: ps, c :: cs => (jsLower p == jsLower c) && startsWithCI ps cs

/-- Every occurrence of the (case-sensitive) literal `pat` reachable
without crossing `stopC`; returns `(gap, rest-after-pat)` pairs in
positional order.  Implements the backtracking choices of
`[^X]*pat`. -/
def findLitCands (stopC : Char) (pat : List Char) (acc : List Char) :
    List Char → List (List Char × List Char)
  | [] => []
  | c :: rest =>
    let here :=
      if pat.isPrefixOf (c :: rest) then [(acc.reverse, (c :: rest).drop pat.length)]
      else []
    if c = stopC then here
    else here ++ findLitCands stopC pat (c :: acc) rest

/-- Case-insensitive variant of `findLitCands` with stop character `>`:
the backtracking choices of `[^>]*pat` under the `i` flag. -/
def findAttrCands (pat : List Char) (acc : List Char) :
    List Char → List (List Char × List Char)
  | [] => []
  | c :: rest =>
    let here :=
      if startsWithCI pat (c :: rest) then [(acc.reverse, (c :: rest).drop pat.length)]
      else []
    if c.toNat = 62 then here
    else here ++ findAttrCands pat (c :: acc) rest

/-- Index of the first `>`. -/
def idxOfGT : List Char → Option Nat
  | [] => none
  | c :: rest => if c.toNat = 62 then some 0 else (idxOfGT rest).map (· + 1)

/-- Index of the first (case-sensitive) occurrence of `pat`. -/
def idxOfSub (pat : List Char) : List Char → Option Nat
  | [] => if pat.isEmpty then some 0 else none
  | c :: rest =>
    if pat.isPrefixOf (c :: rest) then some 0 else (idxOfSub pat rest).map (· + 1)

/-! ### `MarkdownRenderer._convertRelativeUrlsToAbsolute` (lines 274–297)

```js
const normalizedBase = baseUrl.replace(/\/$/, '');
html = html.replace(/<a\s+([^>]*\s+)?href="(\/[^"]+)"/gi, (match, attrs, href) => {
  if (href.startsWith('/') && !href.startsWith('//')) {
    return `<a ${attrs || ''}href="${normalizedBase}${href}"`.replace(/\s+/g, ' ').trim();
  }
  return match;
});
html = html.replace(/<img\s+([^>]*\s+)?src="(\/[^"]+)"/gi, ...);  // same shape
```
-/

/-- `baseUrl.replace(/\/$/, '')`: one trailing slash removed. -/
def stripTrailingSlash (l : List Char) : List Char :=
  match l.getLast? with
  | some c => if c.toNat = 47 then l.dropLast else l
  | none => l

/-- `.replace(/\s+/g, ' ')`: whitespace runs collapsed to one space. -/
def collapseWsGo : Bool → List Char → List Char
  | _, [] => []
  | inRun, c :: rest =>
    if isJsWs c then
      if inRun then collapseWsGo true rest
      else ' ' :: collapseWsGo true rest
    else c :: collapseWsGo false rest

/-- The trailing-`\s+` condition of the optional attrs group: the
candidate's attrs (the gap minus the leading whitespace run) must either
be empty (group absent) or end with whitespace. -/
def attrsEndOk (attrs : List Char) : Bool :=
  attrs.isEmpty ||
    (match attrs.getLast? with
     | some a => isJsWs a
     | none => false)

/-- The `(\/[^"]+)"` part: the value (everything up to the next quote)
must start with `/`, have at least two characters and be followed by the
closing quote. -/
def urlValue (gap attrs after : List Char) :
    Option (List Char × Option (List Char) × List Char) :=
  let v := after.takeWhile fun c => c.toNat ≠ 34
  if 2 ≤ v.length ∧ v.head? = some '/' then
    match after.drop v.length with
    | '"' :: _ => some (gap, (if attrs.isEmpty then none else some attrs), v)
    | _ => none
  else none

/-- Check one `ATTR="` candidate of `<TAG\s+([^>]*\s+)?ATTR="(\/[^"]+)"`:
the gap must be non-empty, start with whitespace (the mandatory `\s+`)
and, unless it is all whitespace, end with whitespace (the group's
trailing `\s+`); then the attribute value is validated.  Returns
`(gap, captured attrs group, value)`; the capture is `none` exactly when
the optional group matched nothing. -/
def urlCandOk (cand : List Char × List Char) :
    Option (List Char × Option (List Char) × List Char) :=
  match cand.1 with
  | [] => none
  | g0 :: _ =>
    if isJsWs g0 then
      if attrsEndOk (cand.1.dropWhile isJsWs) then
        urlValue cand.1 (cand.1.dropWhile isJsWs) cand.2
      else none
    else none

/-- The backtracking over `ATTR="` occurrences: the greedy `[^>]*` of the
optional group prefers the rightmost feasible occurrence. -/
def pickUrlCand (pat : List Char) (l : List Char) :
    Option (List Char × Option (List Char) × List Char) :=
  ((findAttrCands pat [] l).reverse).findSome? urlCandOk

/-- The replacement string
`` `<TAG ${attrs || ''}ATTR="${normalizedBase}${value}"` `` with
whitespace collapsed and trimmed. -/
def urlRepl (tmplPre pat base : List Char) (attrsOpt : Option (List Char))
    (v : List Char) : List Char :=
  jsTrim (collapseWsGo false
    (tmplPre ++ attrsOpt.getD [] ++ pat ++ base ++ v ++ ['"']))

/-- One global URL-rewriting replace: scan for `tagCI` (`<a` or `<img`,
case-insensitively), pick the attribute candidate, and either rewrite
(single leading `/`) or emit the matched slice verbatim (protocol
relative `//`).  `tmplPre` is the literal template head (`"<a "` or
`"<img "`). -/
def convGo (tagCI tmplPre pat base : List Char) : List Char → List Char
  | [] => []
  | c :: rest =>
    if startsWithCI tagCI (c :: rest) then
      match pickUrlCand pat ((c :: rest).drop tagCI.length) with
      | some (gap, attrsOpt, v) =>
        let used := tagCI.length + gap.length + pat.length + v.length
        (if v.take 2 = ['/', '/'] then (c :: rest).take (used + 1)
         else urlRepl tmplPre pat base attrsOpt v) ++
          convGo tagCI tmplPre pat base (rest.drop used)
      | none => c :: convGo tagCI tmplPre pat base rest
    else c :: convGo tagCI tmplPre pat base rest
termination_by l => l.length
decreasing_by
  all_goals try simp only [List.length_drop, List.length_cons]
  all_goals omega

/-- `_convertRelativeUrlsToAbsolute(html, baseUrl)`: anchors first, then
images. -/
def convertRelativeUrls (baseUrl html : List Char) : List Char :=
  let nb := stripTrailingSlash baseUrl
  convGo "<img".data "<img ".data "src=\"".data nb
    (convGo "<a".data "<a ".data "href=\"".data nb html)


/-! ### `MarkdownRenderer._addNotionClasses` (lines 94–207)

Each simple pass is a global replace of
`<TAG(?![^>]*class="[^"]*CLS)([^>]*)>` (flags `gi`) by
`` `<TAG${attrs} class="CLS">` `` (attrs kept only when `attrs.trim()`
is truthy); the inline-code pass carries the additional lookahead
`(?![^>]*<pre)`; the two list passes rewrite `<li>` tags inside
`(<ul[^>]*class="[^"]*notion-bulleted-list[^>]*>)([\s\S]*?)(<\/ul>)`
(flag `g`, case-sensitive) and the `ol` analogue. -/

/-- `[^"]*CLS` after a `class="`: scan for the class name (ASCII
case-insensitively) without crossing a closing quote. -/
def afterQuoteFind (cls : List Char) : List Char → Bool
  | [] => false
  | c :: rest =>
    if startsWithCI cls (c :: rest) then true
    else if c.toNat = 34 then false
    else afterQuoteFind cls rest

/-- The negative-lookahead body `[^>]*class="[^"]*CLS`: some `class="`
occurrence before the tag's `>` is followed by the class name before the
next quote.  On an inner failure the scan continues with later
`class="` occurrences. -/
def laScanClass (cls : List Char) : List Char → Bool
  | [] => false
  | c :: rest =>
    if startsWithCI "class=\"".data (c :: rest) &&
        afterQuoteFind cls ((c :: rest).drop 7) then true
    else if c.toNat = 62 then false
    else laScanClass cls rest

/-- The lookahead body `[^>]*LIT` (used as `[^>]*<pre`). -/
def laFindLit (lit : List Char) : List Char → Bool
  | [] => false
  | c :: rest =>
    if startsWithCI lit (c :: rest) then true
    else if c.toNat = 62 then false
    else laFindLit lit rest

/-- One `addClass`-style global replace.  `tag` is the tag name,
`cls` the class to inject, `useMatched` selects whether the replacement
reuses the matched tag characters (the passes with a captured tag
group, e.g. `<(strong)`) or the lower-case template literal, and
`extra` is the optional additional `(?![^>]*LIT)` lookahead. -/
def addClassGo (tag cls : List Char) (useMatched : Bool)
    (extra : Option (List Char)) : List Char → List Char
  | [] => []
  | c :: rest =>
    if startsWithCI ('<' :: tag) (c :: rest) then
      let after := (c :: rest).drop (tag.length + 1)
      if laScanClass cls after ||
          (match extra with
           | some lit => laFindLit lit after
           | none => false) then
        c :: addClassGo tag cls useMatched extra rest
      else
        let attrs := after.takeWhile fun a => a.toNat ≠ 62
        match after.drop attrs.length with
        | '>' :: _ =>
          let tagOut :=
            if useMatched then ((c :: rest).drop 1).take tag.length else tag
          (if (jsTrim attrs).isEmpty then
            '<' :: tagOut ++ " class=\"".data ++ cls ++ "\">".data
           else
            '<' :: tagOut ++ attrs ++ " class=\"".data ++ cls ++ "\">".data) ++
            addClassGo tag cls useMatched extra
              (rest.drop (tag.length + attrs.length + 1))
        | _ => c :: addClassGo tag cls useMatched extra rest
    else c :: addClassGo tag cls useMatched extra rest
termination_by l => l.length
decreasing_by
  all_goals try simp only [List.length_drop, List.length_cons]
  all_goals omega

/-- The inner `content.replace(/<li([^>]*)>/gi, ...)` of the two list
passes: rewrite unless the attributes already contain the literal
`class="CLS"` (`String.prototype.includes`, case-sensitive). -/
def liGo (cls : List Char) : List Char → List Char
  | [] => []
  | c :: rest =>
    if startsWithCI "<li".data (c :: rest) then
      let after := (c :: rest).drop 3
      let attrs := after.takeWhile fun a => a.toNat ≠ 62
      match after.drop attrs.length with
      | '>' :: _ =>
        (if (idxOfSub ("class=\"".data ++ cls ++ ['"']) attrs).isSome then
          (c :: rest).take (3 + attrs.length + 1)
         else if (jsTrim attrs).isEmpty then
          "<li class=\"".data ++ cls ++ "\">".data
         else
          "<li".data ++ attrs ++ " class=\"".data ++ cls ++ "\">".data) ++
          liGo cls (rest.drop (2 + attrs.length + 1))
      | _ => c :: liGo cls rest
    else c :: liGo cls rest
termination_by l => l.length
decreasing_by
  all_goals try simp only [List.length_drop, List.length_cons]
  all_goals omega

/-- Find the extent of one list-block match after the literal `<ul`
(resp. `<ol`): backtracking over the `class="` and class-name
occurrences of `[^>]*class="[^"]*CLS[^>]*>` — both greedy, so rightmost
first — the block opening ends at the first `>` after the class name,
and the lazy `([\s\S]*?)(<\/ul>)` then reaches to the first close tag.
Returns (length of the opening after the literal, content length). -/
def blockTry (cls closeLit : List Char) (after : List Char) : Option (Nat × Nat) :=
  ((findLitCands '>' "class=\"".data [] after).reverse).findSome? fun ca =>
    ((findLitCands '"' cls [] ca.2).reverse).findSome? fun cb =>
      match idxOfGT cb.2 with
      | none => none
      | some j =>
        let openLen := ca.1.length + 7 + cb.1.length + cls.length + j + 1
        match idxOfSub closeLit (after.drop openLen) with
        | none => none
        | some k => some (openLen, k)

/-- One list-block pass (`tagLit` is `<ul` or `<ol`, case-sensitive):
the matched block is re-emitted as opening ++ `liGo` of the content ++
close tag. -/
def blockGo (tagLit cls closeLit liCls : List Char) : List Char → List Char
  | [] => []
  | c :: rest =>
    if tagLit.isPrefixOf (c :: rest) then
      match blockTry cls closeLit ((c :: rest).drop tagLit.length) with
      | some (openLen, k) =>
        let total := tagLit.length + openLen
        (c :: rest).take total ++ liGo liCls (((c :: rest).drop total).take k) ++
          closeLit ++
          blockGo tagLit cls closeLit liCls
            (rest.drop (total - 1 + k + closeLit.length))
      | none => c :: blockGo tagLit cls closeLit liCls rest
    else c :: blockGo tagLit cls closeLit liCls rest
termination_by l => l.length
decreasing_by
  all_goals try simp only [List.length_drop, List.length_cons]
  all_goals omega

/-- `_addNotionClasses(html)`: the eighteen passes in source order. -/
def addNotionClasses (html : List Char) : List Char :=
  let p1 := addClassGo "p".data "notion-paragraph".data false none html
  let p2 := addClassGo "ul".data "notion-bulleted-list".data false none p1
  let p3 := addClassGo "ol".data "notion-numbered-list".data false none p2
  let p4 := blockGo "<ul".data "notion-bulleted-list".data "</ul>".data
    "notion-bulleted-list-item".data p3
  let p5 := blockGo "<ol".data "notion-numbered-list".data "</ol>".data
    "notion-numbered-list-item".data p4
  let p6 := addClassGo "pre".data "notion-code".data false none p5
  let p7 := addClassGo "code".data "notion-text-code".data false
    (some "<pre".data) p6
  let p8 := addClassGo "a".data "notion-text-link".data false none p7
  let p9 := addClassGo "strong".data "notion-text-bold".data true none p8
  let p10 := addClassGo "b".data "notion-text-bold".data true none p9
  let p11 := addClassGo "em".data "notion-text-italic".data true none p10
  let p12 := addClassGo "i".data "notion-text-italic".data true none p11
  let p13 := addClassGo "u".data "notion-text-underline".data false none p12
  let p14 := addClassGo "s".data "notion-text-strikethrough".data true none p13
  let p15 := addClassGo "del".data "notion-text-strikethrough".data true none p14
  let p16 := addClassGo "blockquote".data "notion-quote".data false none p15
  let p17 := addClassGo "table".data "notion-table".data false none p16
  addClassGo "hr".data "notion-divider".data false none p17


/-- The field names of a JSON object, in order. -/
def JValue.keys : JValue → List String
  | .obj fields => fields.map Prod.fst
  | _ => []

/-- Does a response carry a JSON body with an `error` field? -/
def hasErrorField (r : HttpResponse) : Bool :=
  match r.body with
  | .json j => j.hasKey "error"
  | .html _ => false

/-! ############################################################
    THEOREMS
    ############################################################ -/

/-! ### Slug characterisation: the two fixed-point directions give idempotence -/

theorem char_eq_of_toNat {c d : Char} (h : c.toNat = d.toNat) : c = d := by
  have h1 := Char.ofNat_toNat c
  have h2 := Char.ofNat_toNat d
  rw [← h1, ← h2, h]

theorem toNat_ofNat_small (n : Nat) (h : n < 55296) : (Char.ofNat n).toNat = n := by
  unfold Char.ofNat
  split
  · simp [Char.toNat, Char.ofNatAux, UInt32.toNat, BitVec.toNat_ofNatLt]
  · rename_i h2
    exact absurd (Or.inl h) h2




theorem toNat_dash : ('-').toNat = 45 := by decide

theorem dash_of_toNat {c : Char} (h : c.toNat = 45) : c = '-' :=
  char_eq_of_toNat (by rw [h, toNat_dash])

theorem jsLower_not_upper (c : Char) : ¬(65 ≤ (jsLower c).toNat ∧ (jsLower c).toNat ≤ 90) := by
  unfold jsLower
  split
  · rename_i h
    rw [toNat_ofNat_small _ (by omega)]
    omega
  · rename_i h
    omega

theorem jsLower_fixed {c : Char} (h : ¬(65 ≤ c.toNat ∧ c.toNat ≤ 90)) : jsLower c = c := by
  unfold jsLower
  exact if_neg h

/-- characters of the collapse output -/
theorem mem_collapseGo {c : Char} : ∀ (b : Bool) (l : List Char),
    c ∈ collapseGo b l → c = '-' ∨ (c ∈ l ∧ isCollapseChar c = false)
  | _, [], h => by simp [collapseGo] at h
  | b, d :: rest, h => by
    unfold collapseGo at h
    by_cases hd : isCollapseChar d = true
    · simp only [hd, if_true] at h
      cases b with
      | true =>
        rcases mem_collapseGo true rest h with h1 | ⟨h1, h2⟩
        · exact Or.inl h1
        · exact Or.inr ⟨List.mem_cons_of_mem _ h1, h2⟩
      | false =>
        rcases List.mem_cons.mp h with rfl | h1
        · exact Or.inl rfl
        · rcases mem_collapseGo true rest h1 with h2 | ⟨h2, h3⟩
          · exact Or.inl h2
          · exact Or.inr ⟨List.mem_cons_of_mem _ h2, h3⟩
    · simp only [hd, if_false] at h
      rcases List.mem_cons.mp h with rfl | h1
      · exact Or.inr ⟨List.mem_cons_self _ _, by simpa using hd⟩
      · rcases mem_collapseGo false rest h1 with h2 | ⟨h2, h3⟩
        · exact Or.inl h2
        · exact Or.inr ⟨List.mem_cons_of_mem _ h2, h3⟩

theorem head?_collapseGo_true {c : Char} : ∀ (l : List Char),
    (collapseGo true l).head? = some c → isCollapseChar c = false
  | [], h => by simp [collapseGo] at h
  | d :: rest, h => by
    unfold collapseGo at h
    by_cases hd : isCollapseChar d = true
    · simp only [hd, if_true] at h
      exact head?_collapseGo_true rest h
    · rw [if_neg hd] at h
      have hdc : d = c := by simpa using h
      subst hdc
      exact Bool.eq_false_iff.mpr hd

theorem noDD_collapseGo : ∀ (b : Bool) (l : List Char), NoDD (collapseGo b l)
  | _, [] => by simp [collapseGo, NoDD]
  | b, d :: rest => by
    unfold collapseGo
    by_cases hd : isCollapseChar d = true
    · simp only [hd, if_true]
      cases b with
      | true => exact noDD_collapseGo true rest
      | false =>
        refine List.chain'_cons'.mpr ⟨?_, noDD_collapseGo true rest⟩
        intro y hy
        have := head?_collapseGo_true rest (by simpa using hy)
        intro ⟨h1, h2⟩
        rw [h2] at this
        simp [isCollapseChar, isJsWs, toNat_dash] at this
    · simp only [hd, if_false]
      refine List.chain'_cons'.mpr ⟨?_, noDD_collapseGo false rest⟩
      intro y hy
      intro ⟨h1, h2⟩
      rw [h1] at hd
      simp [isCollapseChar, isJsWs, toNat_dash] at hd

/-- membership through `trimDashes`/`dropEnd` -/
theorem mem_dropEnd {c : Char} {p : Char → Bool} {l : List Char} (h : c ∈ dropEnd p l) : c ∈ l := by
  unfold dropEnd at h
  rw [List.mem_reverse] at h
  exact List.mem_reverse.mp (List.IsSuffix.mem h (List.dropWhile_suffix p))

theorem mem_trimDashes {c : Char} {l : List Char} (h : c ∈ trimDashes l) : c ∈ l :=
  List.IsSuffix.mem (mem_dropEnd h) (List.dropWhile_suffix isDash)

theorem mem_slugifyL {c : Char} {l : List Char} (h : c ∈ slugifyL l) :
    isLowerAlnum c = true ∨ c = '-' := by
  unfold slugifyL at h
  have h1 := mem_trimDashes h
  rcases mem_collapseGo _ _ h1 with h2 | ⟨h2, h3⟩
  · exact Or.inr h2
  · left
    have h4 := List.mem_filter.mp h2
    have h5 : c ∈ List.map jsLower l :=
      List.IsSuffix.mem (mem_dropEnd h4.1) (List.dropWhile_suffix isJsWs)
    rcases List.mem_map.mp h5 with ⟨d, _, rfl⟩
    have h6 := jsLower_not_upper d
    have h7 := h4.2
    rw [Bool.eq_false_iff] at h3
    simp only [keepSlugChar, isWordChar, isCollapseChar, isJsWs, isLowerAlnum,
      Bool.or_eq_true, Bool.and_eq_true, decide_eq_true_eq, not_or, ne_eq] at h7 h3 ⊢
    omega

/-- `NoDD` is preserved by suffixes and reverses -/
theorem noDD_of_suffix {l₁ l₂ : List Char} (h : NoDD l₂) (hs : l₁ <:+ l₂) : NoDD l₁ :=
  List.Chain'.suffix h hs

theorem noDD_reverse {l : List Char} (h : NoDD l) : NoDD l.reverse := by
  unfold NoDD at h ⊢
  rw [List.chain'_reverse]
  exact h.imp (fun a b hab ⟨h1, h2⟩ => hab ⟨h2, h1⟩)

theorem noDD_dropEnd {p : Char → Bool} {l : List Char} (h : NoDD l) : NoDD (dropEnd p l) := by
  unfold dropEnd
  exact noDD_reverse (noDD_of_suffix (noDD_reverse h) (List.dropWhile_suffix p))

theorem noDD_trimDashes {l : List Char} (h : NoDD l) : NoDD (trimDashes l) :=
  noDD_dropEnd (noDD_of_suffix h (List.dropWhile_suffix isDash))

/-- heads of `dropWhile` fail the predicate -/
theorem head?_dropWhile {p : Char → Bool} {l : List Char} {c : Char}
    (h : (l.dropWhile p).head? = some c) : p c = false := by
  have := List.head?_dropWhile_not p l
  rw [h] at this
  exact this

theorem head?_isPrefix {l₁ l₂ : List Char} {c : Char} (h : l₁ <+: l₂)
    (hc : l₁.head? = some c) : l₂.head? = some c := by
  rcases h with ⟨t, rfl⟩
  cases l₁ with
  | nil => simp at hc
  | cons a l => simpa using hc

theorem dropEnd_isPrefix (p : Char → Bool) (l : List Char) : dropEnd p l <+: l := by
  unfold dropEnd
  have : (l.reverse.dropWhile p).reverse <+: l.reverse.reverse :=
    List.reverse_prefix.mpr (List.dropWhile_suffix p)
  simpa using this

theorem head?_slugifyL {l : List Char} {c : Char} (h : (slugifyL l).head? = some c) :
    c ≠ '-' := by
  unfold slugifyL trimDashes at h
  have h1 := head?_isPrefix (dropEnd_isPrefix isDash _) h
  have h2 := head?_dropWhile h1
  intro hc
  rw [hc] at h2
  simp [isDash] at h2

theorem getLast?_slugifyL {l : List Char} {c : Char} (h : (slugifyL l).getLast? = some c) :
    c ≠ '-' := by
  unfold slugifyL trimDashes dropEnd at h
  rw [List.getLast?_reverse] at h
  have h2 := head?_dropWhile h
  intro hc
  rw [hc] at h2
  simp [isDash] at h2

theorem slugOk_slugifyL (l : List Char) : SlugOk (slugifyL l) :=
  ⟨fun _ hc => mem_slugifyL hc,
   noDD_trimDashes (noDD_collapseGo false _),
   fun _ h => head?_slugifyL h,
   fun _ h => getLast?_slugifyL h⟩

/-! ### fixed points of the pipeline phases -/

theorem dropWhile_eq_self_of_all {p : Char → Bool} {l : List Char}
    (h : ∀ c ∈ l, p c = false) : l.dropWhile p = l := by
  cases l with
  | nil => rfl
  | cons a t =>
    rw [List.dropWhile_cons, if_neg]
    simp [h a (List.mem_cons_self a t)]

theorem dropWhile_eq_self_of_head {p : Char → Bool} {l : List Char}
    (h : ∀ c, l.head? = some c → p c = false) : l.dropWhile p = l := by
  cases l with
  | nil => rfl
  | cons a t =>
    rw [List.dropWhile_cons, if_neg]
    simp [h a rfl]

theorem map_eq_self_of_all {f : Char → Char} {l : List Char}
    (h : ∀ c ∈ l, f c = c) : l.map f = l := by
  induction l with
  | nil => rfl
  | cons a t ih =>
    simp only [List.map_cons, h a (List.mem_cons_self a t),
      ih (fun c hc => h c (List.mem_cons_of_mem a hc))]

theorem collapseGo_true_eq_false {l : List Char}
    (h : l = [] ∨ ∃ d t, l = d :: t ∧ isCollapseChar d = false) :
    collapseGo true l = collapseGo false l := by
  rcases h with rfl | ⟨d, t, rfl, hd⟩
  · rfl
  · unfold collapseGo
    rw [if_neg (by simp [hd]), if_neg (by simp [hd])]

theorem collapseGo_false_fixed {l : List Char}
    (hchar : ∀ c ∈ l, isCollapseChar c = true → c = '-')
    (hdd : NoDD l) : collapseGo false l = l := by
  induction l with
  | nil => rfl
  | cons c rest ih =>
    have hrest := (List.chain'_cons'.mp hdd).2
    have ih2 := ih (fun c h hc => hchar c (List.mem_cons_of_mem _ h) hc) hrest
    unfold collapseGo
    by_cases hc : isCollapseChar c = true
    · have hcd : c = '-' := hchar c (List.mem_cons_self _ _) hc
      rw [if_pos hc]
      have hr : rest = [] ∨ ∃ d t, rest = d :: t ∧ isCollapseChar d = false := by
        cases rest with
        | nil => exact Or.inl rfl
        | cons y t =>
          refine Or.inr ⟨y, t, rfl, ?_⟩
          have hy := (List.chain'_cons'.mp hdd).1 y rfl
          rw [hcd] at hy
          have hynd : y ≠ '-' := fun hdash => hy ⟨rfl, hdash⟩
          by_contra hyc
          exact hynd (hchar y (List.mem_cons_of_mem _ (List.mem_cons_self _ _))
            (by simpa using hyc))
      rw [collapseGo_true_eq_false hr, ih2, hcd]
      simp
    · rw [if_neg hc, ih2]

theorem not_dash_toNat {c : Char} (h : c ≠ '-') : isDash c = false := by
  by_contra hc
  exact h (dash_of_toNat (by simpa [isDash] using hc))

theorem slugChar_not_collapse {c : Char} (h : isLowerAlnum c = true) :
    isCollapseChar c = false := by
  rw [Bool.eq_false_iff]
  simp only [isLowerAlnum, isCollapseChar, isJsWs, Bool.or_eq_true, Bool.and_eq_true,
    decide_eq_true_eq, not_or, ne_eq] at h ⊢
  omega

theorem slugifyL_of_slugOk {l : List Char} (h : SlugOk l) : slugifyL l = l := by
  obtain ⟨hchar, hdd, hhead, hlast⟩ := h
  have hlower : l.map jsLower = l := by
    apply map_eq_self_of_all
    intro c hc
    apply jsLower_fixed
    rcases hchar c hc with h1 | rfl
    · simp only [isLowerAlnum, Bool.or_eq_true, Bool.and_eq_true, decide_eq_true_eq] at h1
      omega
    · rw [toNat_dash]; omega
  have hnows : ∀ c ∈ l, isJsWs c = false := by
    intro c hc
    rw [Bool.eq_false_iff]
    rcases hchar c hc with h1 | rfl
    · simp only [isLowerAlnum, isJsWs, Bool.or_eq_true, Bool.and_eq_true,
        decide_eq_true_eq, not_or, ne_eq] at h1 ⊢
      omega
    · simp [isJsWs, toNat_dash]
  have htrim : jsTrim l = l := by
    unfold jsTrim dropEnd
    rw [dropWhile_eq_self_of_all hnows,
      dropWhile_eq_self_of_all (fun c hc => hnows c (List.mem_reverse.mp hc)),
      List.reverse_reverse]
  have hkeep : List.filter keepSlugChar l = l := by
    apply List.filter_eq_self.mpr
    intro c hc
    rcases hchar c hc with h1 | rfl
    · simp only [isLowerAlnum, keepSlugChar, isWordChar, isJsWs, Bool.or_eq_true,
        Bool.and_eq_true, decide_eq_true_eq] at h1 ⊢
      omega
    · simp [keepSlugChar, toNat_dash]
  have hcollapse : collapseGo false l = l := by
    apply collapseGo_false_fixed _ hdd
    intro c hc hcc
    rcases hchar c hc with h1 | rfl
    · rw [slugChar_not_collapse h1] at hcc
      exact absurd hcc (by simp)
    · rfl
  have htrimd : trimDashes l = l := by
    unfold trimDashes dropEnd
    rw [dropWhile_eq_self_of_head (fun c hc => not_dash_toNat (hhead c hc))]
    rw [dropWhile_eq_self_of_head
      (fun c hc => not_dash_toNat (hlast c (by rwa [List.head?_reverse] at hc)))]
    exact List.reverse_reverse l
  unfold slugifyL
  rw [hlower, htrim, hkeep, hcollapse, htrimd]

theorem slugifyL_idem (l : List Char) : slugifyL (slugifyL l) = slugifyL l :=
  slugifyL_of_slugOk (slugOk_slugifyL l)

/-- C6: `slugify "My Page!" = "my-page"`, `slugify "  A -- B  " = "a-b"`,
and `slugify` is idempotent (`slugify (slugify x) = slugify x` for every
string `x`); the pipeline lower-cases, trims, strips characters outside
alphanumeric/underscore/hyphen/whitespace, collapses runs of
whitespace/underscore/hyphen into a single hyphen and trims leading and
trailing hyphens. -/
theorem slugify_examples_and_idempotent :
    slugify "My Page!" = "my-page" ∧ slugify "  A -- B  " = "a-b" ∧
      ∀ x : String, slugify (slugify x) = slugify x :=
  ⟨by decide, by decide, fun x => congrArg String.mk (slugifyL_idem x.data)⟩

/-! ### C10 — `parseSession` with and without a parent folder -/

/-- C10: with no parent folder `parseSession` returns a session named
after the entry document with an empty category list, whatever the entry
document's content (so the content is never read and a read error cannot
surface); with a parent folder any returned session has exactly one root
category. -/
theorem parseSession_parent_cases (cmp : String → String → Int)
    (entry : FileNode) :
    (∀ content, parseSession cmp { entry with content := content } none =
      some ⟨entry.basename, []⟩) ∧
    (∀ parentName children s,
      parseSession cmp entry (some (parentName, children)) = some s →
      s.categories.length = 1) := by
  constructor
  · intro content
    rfl
  · intro parentName children s h
    unfold parseSession at h
    cases hr : getRootCategoryName entry with
    | none => rw [hr] at h; cases h
    | some rootName =>
      rw [hr] at h
      cases h
      rfl

unseal scanFolder List.mergeSort List.merge in
/-- Witness for C10 at a concrete vault. -/
theorem parseSession_parent_cases_witness :
    (Session.mk "s" [Category.mk "Root" [] []]).categories.length = 1 :=
  (parseSession_parent_cases (fun _ _ => 0)
      ⟨"s.md", "s", "md", "root/s.md", some "# Root"⟩).2 "root" []
    (Session.mk "s" [Category.mk "Root" [] []]) rfl

/-! ### C7 — server routing error responses -/

/-- C7: `GET /gm-vault` with no selected entry document answers 400 with
a JSON `error` body; `GET /pages/:slug` with a slug matching no document
— no document's slugified base name equals the slug and no base name
equals it under case-insensitive comparison — answers 404 with a JSON
`error` body. -/
theorem routes_error_responses (cmp : String → String → Int)
    (b : GMVaultJSONBuilder) (slug : String) (files : List FileNode)
    (render : String → String → String)
    (hnomatch : ∀ f ∈ files, slugify f.basename ≠ slug ∧
      jsLowerStr f.basename ≠ jsLowerStr slug) :
    (gmVaultRoute cmp none b).status = 400 ∧
    hasErrorField (gmVaultRoute cmp none b) = true ∧
    (pagesRoute slug files render).status = 404 ∧
    hasErrorField (pagesRoute slug files render) = true := by
  have hfind : findFileBySlug slug files = none := by
    apply List.find?_eq_none.mpr
    intro f hf
    rcases hnomatch f hf with ⟨h1, h2⟩
    simp only [Bool.or_eq_true, beq_iff_eq, not_or]
    constructor
    · exact h1
    · intro heq
      apply h2
      rw [← heq]
      apply congrArg String.mk
      apply (map_eq_self_of_all ?_).symm
      intro c hc
      rcases List.mem_map.mp hc with ⟨d, _, rfl⟩
      exact jsLower_fixed (jsLower_not_upper d)
  refine ⟨rfl, rfl, ?_, ?_⟩
  · unfold pagesRoute
    rw [hfind]
  · unfold pagesRoute
    rw [hfind]
    rfl

/-- Witness for C7 at a concrete repository. -/
theorem routes_error_responses_witness :
    (gmVaultRoute (fun _ _ => 0) none ⟨"http://h"⟩).status = 400 ∧
    hasErrorField (gmVaultRoute (fun _ _ => 0) none ⟨"http://h"⟩) = true ∧
    (pagesRoute "missing" [⟨"a.md", "a", "md", "a.md", some "x"⟩]
      (fun _ _ => "")).status = 404 ∧
    hasErrorField (pagesRoute "missing" [⟨"a.md", "a", "md", "a.md", some "x"⟩]
      (fun _ _ => "")) = true :=
  routes_error_responses (fun _ _ => 0) ⟨"http://h"⟩ "missing"
    [⟨"a.md", "a", "md", "a.md", some "x"⟩] (fun _ _ => "")
    (by
      intro f hf
      rcases List.mem_singleton.mp hf with rfl
      constructor
      · decide
      · decide)

/-! ### C8 — the presentational-class pass is not idempotent -/

set_option maxRecDepth 100000 in
unseal addClassGo liGo blockGo in
/-- C8 (refuted): the presentational-class injection pass is not
idempotent on every HTML string.  On the legal-HTML input
`<ul class=">notion-bulleted-list">` — a quoted attribute value
containing `>` — the `u`-tag pass of the first application appends
`class="notion-text-underline"` inside the tag, which breaks the
`[^>]*class="[^"]*notion-bulleted-list` lookahead path that had
protected the `ul` tag, so the second application injects
`class="notion-bulleted-list"` as well and the outputs differ. -/
theorem addNotionClasses_not_idempotent :
    addNotionClasses
        (addNotionClasses "<ul class=\">notion-bulleted-list\">".data) ≠
      addNotionClasses "<ul class=\">notion-bulleted-list\">".data := by
  decide

/-! ### C9 — URL absolutization (refuting counterexample) -/

unseal convGo in
/-- C9 (counterexample to the claim as stated): the anchor value `/`
begins with a single `/` and is not protocol-relative, yet the pass
leaves it unchanged — the regex `(\/[^"]+)` demands at least one
character after the slash; and with the base URL `/api` the rewritten
value `/api/x` again starts with a single `/`, so a second invocation
prepends the base a second time. -/
theorem convertRelativeUrls_counterexample :
    convertRelativeUrls "http://h:3000".data "<a href=\"/\">".data =
      "<a href=\"/\">".data ∧
    convertRelativeUrls "/api".data
        (convertRelativeUrls "/api".data "<a href=\"/x\">".data) ≠
      convertRelativeUrls "/api".data "<a href=\"/x\">".data := by
  exact ⟨by decide, by decide⟩

/-! ### C4 — page names (refuting counterexample for the alias case) -/

unseal stripWikiTokens in
/-- C4 (counterexample to the claim as stated): the heading
`# [[Foo|Bar]]` yields the page name `Foo` — the *target* portion of the
cross-reference token — not the display portion `Bar` that the claim
demands (`.replace(/\[\[([^\]|]+)(\|[^\]]+)?\]\]/g, '$1')` keeps the
first capture group, which is the text before the `|`). -/
theorem getPageName_alias_counterexample :
    getPageName ⟨"n.md", "n", "md", "p/n.md", some "# [[Foo|Bar]]"⟩ =
      "Foo" ∧ ("Foo" : String) ≠ "Bar" := by
  constructor
  · decide
  · decide

/-! ### C1 — the exporter's JSON shape -/

/-- C1: `buildJSON` maps a session to `{categories}`; every category to
`{name, pages?, categories?}` where the `pages`/`categories` keys are
present exactly when the corresponding array is non-empty (a category
with neither serialises to exactly `{name}`); and every page to
`{name, url, blockTypes?}` where `url` is the current base URL —
including one set later through `setBaseUrl` — concatenated with
`/pages/` and the slug, and `blockTypes` is present exactly when
non-empty. -/
theorem buildJSON_shape (b : GMVaultJSONBuilder) (u : String) (s : Session)
    (c : Category) (p : Page) :
    buildJSON b s =
      JValue.obj [("categories",
        JValue.arr (s.categories.map (buildCategoryJSON b)))] ∧
    (buildCategoryJSON b c).lookup "name" = some (JValue.str c.name) ∧
    ((buildCategoryJSON b c).hasKey "pages" = true ↔ c.pages ≠ []) ∧
    ((buildCategoryJSON b c).hasKey "categories" = true ↔ c.categories ≠ []) ∧
    (c.pages = [] → c.categories = [] →
      buildCategoryJSON b c = JValue.obj [("name", JValue.str c.name)]) ∧
    buildPageJSON (b.setBaseUrl u) p =
      JValue.obj
        ([("name", JValue.str p.name),
          ("url", JValue.str (u ++ "/pages/" ++ p.slug))] ++
          (if p.blockTypes ≠ [] then
            [("blockTypes", JValue.arr (p.blockTypes.map JValue.str))]
          else [])) ∧
    ((buildPageJSON b p).hasKey "blockTypes" = true ↔ p.blockTypes ≠ []) ∧
    (buildPageJSON b p).lookup "url" =
      some (JValue.str (b.baseUrl ++ "/pages/" ++ p.slug)) := by
  obtain ⟨n, ps, cs⟩ := c
  refine ⟨rfl, ?_, ?_, ?_, ?_, ?_, ?_, ?_⟩
  · by_cases hps : ps.length = 0 <;> by_cases hcs : cs.length = 0 <;>
      simp [buildCategoryJSON, JValue.lookup, List.lookup, hps, hcs,
        Category.name]
  · by_cases hps : ps.length = 0 <;> by_cases hcs : cs.length = 0 <;>
      simp [buildCategoryJSON, JValue.hasKey, JValue.lookup, List.lookup,
        hps, hcs, Category.pages, ← List.length_eq_zero]
  · by_cases hps : ps.length = 0 <;> by_cases hcs : cs.length = 0 <;>
      simp [buildCategoryJSON, JValue.hasKey, JValue.lookup, List.lookup,
        hps, hcs, Category.categories, ← List.length_eq_zero]
  · intro hp hc
    simp only [Category.pages] at hp
    simp only [Category.categories] at hc
    subst hp hc
    simp [buildCategoryJSON, Category.name]
  · by_cases hb : p.blockTypes = []
    · simp [buildPageJSON, GMVaultJSONBuilder.setBaseUrl, hb]
    · have hlen : p.blockTypes.length > 0 := List.length_pos.mpr hb
      simp [buildPageJSON, GMVaultJSONBuilder.setBaseUrl, hb, hlen]
  · by_cases hb : p.blockTypes = []
    · simp [buildPageJSON, JValue.hasKey, JValue.lookup, List.lookup, hb]
    · have hlen : p.blockTypes.length > 0 := List.length_pos.mpr hb
      simp [buildPageJSON, JValue.hasKey, JValue.lookup, List.lookup, hb, hlen]
  · by_cases hb : p.blockTypes = []
    · simp [buildPageJSON, JValue.lookup, List.lookup, hb]
    · have hlen : p.blockTypes.length > 0 := List.length_pos.mpr hb
      simp [buildPageJSON, JValue.lookup, List.lookup, hb, hlen]

/-- Witness for C1's empty-category elision at a concrete category. -/
theorem buildJSON_shape_witness :
    buildCategoryJSON ⟨"http://h"⟩ (Category.mk "Empty" [] []) =
      JValue.obj [("name", JValue.str "Empty")] :=
  (buildJSON_shape ⟨"http://h"⟩ "http://h2" ⟨"s", []⟩
    (Category.mk "Empty" [] []) ⟨"p", "q", []⟩).2.2.2.2.1 rfl rfl

theorem hasWikiLink_no_bracket : ∀ {l : List Char}, '[' ∉ l → hasWikiLink l = false
  | [], _ => by simp [hasWikiLink]
  | c :: rest, h => by
    rw [hasWikiLink.eq_def]
    split
    · rfl
    · rename_i heq
      cases heq
      exact absurd (List.mem_cons_self _ _) h
    · rename_i heq
      cases heq
      exact hasWikiLink_no_bracket fun hm => h (List.mem_cons_of_mem _ hm)

theorem replaceWikiLinks_no_bracket {b : Option (List Char)} :
    ∀ {l : List Char}, '[' ∉ l → replaceWikiLinks b l = l
  | [], _ => by simp [replaceWikiLinks]
  | c :: rest, h => by
    rw [replaceWikiLinks.eq_def]
    split
    · rename_i heq
      cases heq
    · rename_i heq
      cases heq
      exact absurd (List.mem_cons_self _ _) h
    · rename_i heq
      cases heq
      rw [replaceWikiLinks_no_bracket fun hm => h (List.mem_cons_of_mem _ hm)]
theorem hasWikiLink_cons_ne {c : Char} {l : List Char} (hc : c ≠ '[') :
    hasWikiLink (c :: l) = hasWikiLink l := by
  rw [hasWikiLink.eq_def]
  split
  · rename_i heq
    cases heq
  · rename_i heq
    cases heq
    exact absurd rfl hc
  · rename_i heq
    cases heq
    rfl

theorem replaceWikiLinks_cons_ne {b : Option (List Char)} {c : Char}
    {l : List Char} (hc : c ≠ '[') :
    replaceWikiLinks b (c :: l) = c :: replaceWikiLinks b l := by
  rw [replaceWikiLinks.eq_def]
  split
  · rename_i heq
    cases heq
  · rename_i heq
    cases heq
    exact absurd rfl hc
  · rename_i heq
    cases heq
    rfl

theorem hasWikiLink_append_of_ne {l₂ : List Char} :
    ∀ {l₁ : List Char}, '[' ∉ l₁ → hasWikiLink (l₁ ++ l₂) = hasWikiLink l₂
  | [], _ => rfl
  | c :: t, h => by
    rw [List.cons_append,
      hasWikiLink_cons_ne (fun hc => h (hc ▸ List.mem_cons_self _ _))]
    exact hasWikiLink_append_of_ne fun hm => h (List.mem_cons_of_mem _ hm)

theorem replaceWikiLinks_append_of_ne {b : Option (List Char)} {l₂ : List Char} :
    ∀ {l₁ : List Char}, '[' ∉ l₁ →
      replaceWikiLinks b (l₁ ++ l₂) = l₁ ++ replaceWikiLinks b l₂
  | [], _ => rfl
  | c :: t, h => by
    rw [List.cons_append,
      replaceWikiLinks_cons_ne (fun hc => h (hc ▸ List.mem_cons_self _ _)),
      replaceWikiLinks_append_of_ne fun hm => h (List.mem_cons_of_mem _ hm),
      List.cons_append]

unseal replaceWikiLinks in
theorem replaceWikiLinks_fooBar_step (b : Option (List Char)) (post : List Char) :
    replaceWikiLinks b ("[[Foo Bar]]".data ++ post) =
      wikiAnchor b "Foo Bar".data ++ replaceWikiLinks b post := rfl

unseal replaceWikiLinks in
theorem replaceWikiLinks_fooAlias_step (b : Option (List Char)) (post : List Char) :
    replaceWikiLinks b ("[[Foo|Alias]]".data ++ post) =
      wikiAnchor b "Foo|Alias".data ++ replaceWikiLinks b post := rfl

unseal hasWikiLink in
theorem hasWikiLink_fooBar (post : List Char) :
    hasWikiLink ("[[Foo Bar]]".data ++ post) = true := rfl

unseal hasWikiLink in
theorem hasWikiLink_fooAlias (post : List Char) :
    hasWikiLink ("[[Foo|Alias]]".data ++ post) = true := rfl

theorem wikiAnchor_fooBar (b : Option (List Char)) :
    wikiAnchor b "Foo Bar".data =
      "<a href=\"".data ++ b.getD [] ++ "/pages/foo-bar\">Foo Bar</a>".data := by
  cases b <;> simp [wikiAnchor, wikiParts, escapeHtml, escapeChar, jsTrim,
    dropEnd, isJsWs] <;> decide

theorem wikiAnchor_fooAlias (b : Option (List Char)) :
    wikiAnchor b "Foo|Alias".data =
      "<a href=\"".data ++ b.getD [] ++ "/pages/foo\">Alias</a>".data := by
  cases b <;> simp [wikiAnchor, wikiParts, escapeHtml, escapeChar, jsTrim,
    dropEnd, isJsWs] <;> decide

/-- C2: rendering text containing `[[Foo Bar]]` produces an anchor whose
href is the base URL (empty when unset) followed by `/pages/foo-bar` —
so the href ends in `/pages/foo-bar` — with visible text `Foo Bar`;
`[[Foo|Alias]]` produces an anchor with the slug of the target before
the `|` (`/pages/foo`) and visible text `Alias`.  The surrounding text
(`pre`/`post`, free of further `[` markers) passes through unchanged. -/
theorem wikiLink_roundtrip (b : Option (List Char)) (pre post : List Char)
    (hpre : '[' ∉ pre) (hpost : '[' ∉ post) :
    renderTextToken b (pre ++ "[[Foo Bar]]".data ++ post) =
      pre ++ "<a href=\"".data ++ b.getD [] ++
        "/pages/foo-bar\">Foo Bar</a>".data ++ post ∧
    renderTextToken b (pre ++ "[[Foo|Alias]]".data ++ post) =
      pre ++ "<a href=\"".data ++ b.getD [] ++
        "/pages/foo\">Alias</a>".data ++ post := by
  constructor
  · have h1 : hasWikiLink (pre ++ "[[Foo Bar]]".data ++ post) = true := by
      rw [List.append_assoc, hasWikiLink_append_of_ne hpre, hasWikiLink_fooBar]
    simp only [renderTextToken, h1, if_true]
    rw [List.append_assoc, replaceWikiLinks_append_of_ne hpre,
      replaceWikiLinks_fooBar_step, replaceWikiLinks_no_bracket hpost,
      wikiAnchor_fooBar]
    simp [List.append_assoc]
  · have h1 : hasWikiLink (pre ++ "[[Foo|Alias]]".data ++ post) = true := by
      rw [List.append_assoc, hasWikiLink_append_of_ne hpre, hasWikiLink_fooAlias]
    simp only [renderTextToken, h1, if_true]
    rw [List.append_assoc, replaceWikiLinks_append_of_ne hpre,
      replaceWikiLinks_fooAlias_step, replaceWikiLinks_no_bracket hpost,
      wikiAnchor_fooAlias]
    simp [List.append_assoc]

/-- Witness for C2 at concrete surrounding text and base URL. -/
theorem wikiLink_roundtrip_witness :
    renderTextToken (some "http://h".data) ("see ".data ++ "[[Foo Bar]]".data ++
        " ok".data) =
      "see ".data ++ "<a href=\"".data ++ (some "http://h".data).getD [] ++
        "/pages/foo-bar\">Foo Bar</a>".data ++ " ok".data :=
  (wikiLink_roundtrip (some "http://h".data) "see ".data " ok".data
    (by decide) (by decide)).1
/-! ### C4 — page-name extraction (amended: aliases strip to the target) -/

theorem takeWhile_append_stop {p : Char → Bool} {t r : List Char}
    (ht : ∀ c ∈ t, p c = true) {c : Char} (hc : p c = false) :
    (t ++ c :: r).takeWhile p = t := by
  induction t with
  | nil => simp [List.takeWhile_cons, hc]
  | cons a t ih =>
    simp only [List.cons_append, List.takeWhile_cons, ht a (List.mem_cons_self a t)]
    rw [ih (fun x hx => ht x (List.mem_cons_of_mem _ hx))]
    simp

theorem stripWikiTokens_cons_ne {c : Char} {l : List Char} (hc : c ≠ '[') :
    stripWikiTokens (c :: l) = c :: stripWikiTokens l := by
  rw [stripWikiTokens.eq_def]
  split
  · rename_i heq
    cases heq
  · rename_i heq
    cases heq
    exact absurd rfl hc
  · rename_i heq
    cases heq
    rfl

theorem stripWikiTokens_no_bracket :
    ∀ {l : List Char}, '[' ∉ l → stripWikiTokens l = l
  | [], _ => by simp [stripWikiTokens]
  | c :: rest, h => by
    rw [stripWikiTokens_cons_ne fun hc => h (hc ▸ List.mem_cons_self _ _),
      stripWikiTokens_no_bracket fun hm => h (List.mem_cons_of_mem _ hm)]

theorem stripWikiTokens_append_of_ne {l₂ : List Char} :
    ∀ {l₁ : List Char}, '[' ∉ l₁ →
      stripWikiTokens (l₁ ++ l₂) = l₁ ++ stripWikiTokens l₂
  | [], _ => rfl
  | c :: t, h => by
    rw [List.cons_append,
      stripWikiTokens_cons_ne (fun hc => h (hc ▸ List.mem_cons_self _ _)),
      stripWikiTokens_append_of_ne fun hm => h (List.mem_cons_of_mem _ hm),
      List.cons_append]

theorem nameWikiMatch_plain {t post : List Char} (hne : t ≠ [])
    (ht : ∀ c ∈ t, c ≠ ']' ∧ c ≠ '|') :
    nameWikiMatch (t ++ (']' :: ']' :: post)) = some (t, t.length + 2) := by
  unfold nameWikiMatch
  have hg1 : (t ++ (']' :: ']' :: post)).takeWhile
      (fun c => c.toNat ≠ 93 && c.toNat ≠ 124) = t := by
    apply takeWhile_append_stop
    · intro c hc
      rcases ht c hc with ⟨h1, h2⟩
      simp only [Bool.and_eq_true, decide_eq_true_eq]
      exact ⟨fun he => h1 (char_eq_of_toNat (by rw [he]; decide)),
        fun he => h2 (char_eq_of_toNat (by rw [he]; decide))⟩
    · decide
  rw [hg1]
  simp only [List.isEmpty_iff, hne, if_false, List.drop_left]

theorem nameWikiMatch_alias {t d post : List Char} (hne : t ≠ [])
    (ht : ∀ c ∈ t, c ≠ ']' ∧ c ≠ '|') (hdne : d ≠ [])
    (hd : ∀ c ∈ d, c ≠ ']') :
    nameWikiMatch (t ++ ('|' :: (d ++ (']' :: ']' :: post)))) =
      some (t, t.length + 1 + d.length + 2) := by
  unfold nameWikiMatch
  have hg1 : (t ++ ('|' :: (d ++ (']' :: ']' :: post)))).takeWhile
      (fun c => c.toNat ≠ 93 && c.toNat ≠ 124) = t := by
    apply takeWhile_append_stop
    · intro c hc
      rcases ht c hc with ⟨h1, h2⟩
      simp only [Bool.and_eq_true, decide_eq_true_eq]
      exact ⟨fun he => h1 (char_eq_of_toNat (by rw [he]; decide)),
        fun he => h2 (char_eq_of_toNat (by rw [he]; decide))⟩
    · decide
  rw [hg1]
  simp only [List.isEmpty_iff, hne, if_false, List.drop_left]
  have hg2 : (d ++ (']' :: ']' :: post)).takeWhile (fun c => c.toNat ≠ 93) = d := by
    apply takeWhile_append_stop
    · intro c hc
      simp only [decide_eq_true_eq]
      exact fun he => hd c hc (char_eq_of_toNat (by rw [he]; decide))
    · decide
  rw [hg2]
  simp only [List.isEmpty_iff, hdne, if_false, List.drop_left]

theorem stripWikiTokens_plain_step {t post : List Char} (hne : t ≠ [])
    (ht : ∀ c ∈ t, c ≠ ']' ∧ c ≠ '|') :
    stripWikiTokens ('[' :: '[' :: (t ++ (']' :: ']' :: post))) =
      t ++ stripWikiTokens post := by
  rw [stripWikiTokens.eq_def]
  split
  · rename_i heq
    cases heq
  · rename_i heq
    cases heq
    rw [nameWikiMatch_plain hne ht]
    have hdrop : (t ++ (']' :: ']' :: post)).drop (t.length + 2) = post := by
      have hsh : t ++ (']' :: ']' :: post) = (t ++ [']', ']']) ++ post := by
        simp
      rw [hsh]
      exact List.drop_left' (by simp)
    show t ++ stripWikiTokens ((t ++ (']' :: ']' :: post)).drop (t.length + 2)) =
      t ++ stripWikiTokens post
    rw [hdrop]
  · rename_i hno heq
    cases heq
    exact ((hno (t ++ (']' :: ']' :: post)) rfl rfl)).elim

theorem stripWikiTokens_alias_step {t d post : List Char} (hne : t ≠ [])
    (ht : ∀ c ∈ t, c ≠ ']' ∧ c ≠ '|') (hdne : d ≠ [])
    (hd : ∀ c ∈ d, c ≠ ']') :
    stripWikiTokens ('[' :: '[' :: (t ++ ('|' :: (d ++ (']' :: ']' :: post))))) =
      t ++ stripWikiTokens post := by
  rw [stripWikiTokens.eq_def]
  split
  · rename_i heq
    cases heq
  · rename_i heq
    cases heq
    rw [nameWikiMatch_alias hne ht hdne hd]
    have hdrop : (t ++ ('|' :: (d ++ (']' :: ']' :: post)))).drop
        (t.length + 1 + d.length + 2) = post := by
      have hsh : t ++ ('|' :: (d ++ (']' :: ']' :: post))) =
          (t ++ '|' :: d ++ [']', ']']) ++ post := by
        simp
      rw [hsh]
      exact List.drop_left' (by simp; omega)
    show t ++ stripWikiTokens ((t ++ ('|' :: (d ++ (']' :: ']' :: post)))).drop
      (t.length + 1 + d.length + 2)) = t ++ stripWikiTokens post
    rw [hdrop]
  · rename_i hno heq
    cases heq
    exact ((hno (t ++ ('|' :: (d ++ (']' :: ']' :: post)))) rfl rfl)).elim

/-- C4 (amended): the page name is the first top-level heading capture,
trimmed, with every cross-reference token stripped to its *target*
portion (the text before any `|` alias); when the file has no top-level
heading or the read fails the name falls back to the file's base name;
a read failure never aborts the scan — the page is still produced with
the fallback name; and a heading line whose tail ends in a carriage
return (every heading of a CRLF file after `split('\n')`) never matches
`/^#\s+(.+)$/`, since JS `.` excludes line terminators. -/
theorem getPageName_spec (f : FileNode) (t d pre post : List Char)
    (htne : t ≠ []) (ht : ∀ c ∈ t, c ≠ ']' ∧ c ≠ '|')
    (hdne : d ≠ []) (hd : ∀ c ∈ d, c ≠ ']')
    (hpre : '[' ∉ pre) (hpost : '[' ∉ post) :
    (f.content = none → getPageName f = f.basename) ∧
    (∀ content, f.content = some content → firstH1 content = none →
      getPageName f = f.basename) ∧
    (∀ content cap, f.content = some content → firstH1 content = some cap →
      getPageName f = String.mk (stripWikiTokens (jsTrim cap))) ∧
    stripWikiTokens (pre ++ ('[' :: '[' :: (t ++ (']' :: ']' :: post)))) =
      pre ++ (t ++ post) ∧
    stripWikiTokens
        (pre ++ ('[' :: '[' :: (t ++ ('|' :: (d ++ (']' :: ']' :: post)))))) =
      pre ++ (t ++ post) ∧
    (∀ cmp ep nm, f.extension = "md" → f.content = none → f.path ≠ ep →
      (scanFolder cmp ep nm [VaultNode.file f]).pages =
        [⟨f.basename, slugify f.basename, []⟩]) ∧
    (∀ w u : List Char, w ≠ [] → (∀ c ∈ w, isJsWs c = true) →
      (∀ x, u.head? = some x → isJsWs x = false) → u ≠ [] →
      h1Match ('#' :: (w ++ (u ++ ['\r']))) = none) := by
  refine ⟨?_, ?_, ?_, ?_, ?_, ?_, ?_⟩
  · intro h
    simp only [getPageName, h]
  · intro content h h1
    simp only [getPageName, h, h1]
  · intro content cap h h1
    simp only [getPageName, h, h1]
  · rw [stripWikiTokens_append_of_ne hpre, stripWikiTokens_plain_step htne ht,
      stripWikiTokens_no_bracket hpost]
  · rw [stripWikiTokens_append_of_ne hpre,
      stripWikiTokens_alias_step htne ht hdne hd,
      stripWikiTokens_no_bracket hpost]
  · intro cmp ep nm hext hcont hpath
    have h1 : mdFilesOf [VaultNode.file f] = [f] := by
      simp [mdFilesOf, hext]
    have h2 : getPageName f = f.basename := by
      unfold getPageName
      rw [hcont]
    have h3 : subFoldersOf [VaultNode.file f] = [] := by simp [subFoldersOf]
    rw [scanFolder.eq_def, h1, h3]
    simp [List.mergeSort_singleton, List.mergeSort_nil, List.filter, hpath,
      pageOfFile, h2, Category.pages]
  · intro w u hw hwws huh hune
    simp only [h1Match]
    rw [if_pos (by decide)]
    have hu : u = u.head?.getD ' ' :: u.tail := by
      cases u with
      | nil => exact absurd rfl hune
      | cons a r => rfl
    have htw : ((w ++ (u ++ ['\r'])).takeWhile isJsWs).length = w.length := by
      rw [hu, List.cons_append, takeWhile_append_stop hwws
        (huh _ (by rw [hu]; rfl))]
    have hlen : (w ++ (u ++ ['\r'])).length - 1 = w.length + (u.length - 1) + 1 := by
      simp only [List.length_append, List.length_cons, List.length_nil]
      have : 1 ≤ u.length := by
        cases u with
        | nil => exact absurd rfl hune
        | cons a r => simp
      omega
    have hk : min ((w ++ (u ++ ['\r'])).takeWhile isJsWs).length
        ((w ++ (u ++ ['\r'])).length - 1) = w.length := by
      rw [htw, hlen]
      omega
    rw [hk, List.drop_left]
    rw [if_neg]
    intro hcond
    have hall := hcond.2
    rw [List.all_append] at hall
    simp at hall
    exact absurd hall.2 (by decide)

/-- Witness for C4's amended theorem at a concrete file and tokens,
including the CR-terminated heading line that can never match. -/
theorem getPageName_spec_witness :
    stripWikiTokens ("# ".data ++ ('[' :: '[' ::
        ("Foo".data ++ ('|' :: ("Bar".data ++ (']' :: ']' :: " x".data)))))) =
      "# ".data ++ ("Foo".data ++ " x".data) ∧
    h1Match ('#' :: ([' '] ++ ("Title".data ++ ['\r']))) = none :=
  ⟨(getPageName_spec ⟨"n.md", "n", "md", "p/n.md", none⟩ "Foo".data "Bar".data
    "# ".data " x".data (by decide) (by decide) (by decide) (by decide)
    (by decide) (by decide)).2.2.2.2.1,
   (getPageName_spec ⟨"n.md", "n", "md", "p/n.md", none⟩ "Foo".data "Bar".data
    "# ".data " x".data (by decide) (by decide) (by decide) (by decide)
    (by decide) (by decide)).2.2.2.2.2.2 [' '] "Title".data (by decide)
    (by decide) (by decide) (by decide)⟩

/-! ### C3 — the entry document never becomes a page -/

theorem pagesInCategory_mk (n : String) (ps : List Page) (cs : List Category) :
    pagesInCategory (Category.mk n ps cs) =
      ps ++ (cs.map pagesInCategory).flatten := by
  rw [pagesInCategory.eq_def]
  exact congrArg (ps ++ ·) (congrArg List.flatten (List.attach_map_coe cs pagesInCategory))

theorem mem_mdFilesOf_tree : ∀ {children : List VaultNode} {f : FileNode},
    f ∈ mdFilesOf children → f ∈ mdFilesInTree children
  | [], f, h => by simp [mdFilesOf] at h
  | node :: rest, f, h => by
    rcases List.mem_filterMap.mp h with ⟨nd, hnd, heq⟩
    rcases List.mem_cons.mp hnd with rfl | hmem
    · cases nd with
      | file g =>
        by_cases hg : g.extension = "md"
        · simp only [hg, if_true] at heq
          rw [Option.some_inj] at heq
          subst heq
          simp [mdFilesInTree, hg]
        · simp only [hg, if_false] at heq
          cases heq
      | folder nm cs => cases heq
    · have hrest : f ∈ mdFilesOf rest :=
        List.mem_filterMap.mpr ⟨nd, hmem, heq⟩
      have := mem_mdFilesOf_tree hrest
      cases node with
      | file g => simp [mdFilesInTree, this]
      | folder nm cs => simp [mdFilesInTree, this]

theorem mdFilesInTree_of_subfolder {children : List VaultNode}
    {nm : String} {cs : List VaultNode} (hmem : VaultNode.folder nm cs ∈ children)
    {f : FileNode} (hf : f ∈ mdFilesInTree cs) : f ∈ mdFilesInTree children := by
  induction children with
  | nil => cases hmem
  | cons c rest ih =>
    rcases List.mem_cons.mp hmem with heq | hmem2
    · rw [← heq]
      simp [mdFilesInTree, hf]
    · have := ih hmem2
      cases c with
      | file g => simp [mdFilesInTree, this]
      | folder nm2 cs2 => simp [mdFilesInTree, this]

theorem scanFolder_excludes_entry_aux :
    ∀ n : Nat, ∀ children : List VaultNode, sizeOf children ≤ n →
      ∀ (cmp : String → String → Int) (entryPath name : String) (p : Page),
        p ∈ pagesInCategory (scanFolder cmp entryPath name children) →
        ∃ f, f ∈ mdFilesInTree children ∧ f.path ≠ entryPath ∧
          p = pageOfFile f := by
  intro n
  induction n using Nat.strong_induction_on with
  | _ n ih =>
    intro children hsz cmp ep nm p hp
    rw [scanFolder.eq_def] at hp
    rw [pagesInCategory_mk] at hp
    rcases List.mem_append.mp hp with h1 | h2
    · rcases List.mem_map.mp h1 with ⟨f, hf1, rfl⟩
      have hf2 := List.mem_filter.mp hf1
      have hf3 : f ∈ mdFilesOf children :=
        (List.mergeSort_perm (mdFilesOf children) (fileLe cmp)).subset hf2.1
      refine ⟨f, mem_mdFilesOf_tree hf3, ?_, rfl⟩
      simpa using hf2.2
    · rcases List.mem_flatten.mp h2 with ⟨l, hl, hpl⟩
      rcases List.mem_map.mp hl with ⟨cat, hcat, rfl⟩
      rcases List.mem_map.mp hcat with ⟨x, _, rfl⟩
      have hx : x.1 ∈ subFoldersOf children :=
        (List.mergeSort_perm (subFoldersOf children) (folderLe cmp)).subset x.2
      rcases List.mem_filterMap.mp hx with ⟨node, hnode, heq⟩
      cases node with
      | file g => cases heq
      | folder nm2 cs2 =>
        rw [Option.some_inj] at heq
        have hsz2 : sizeOf cs2 < sizeOf children := by
          have h4 := List.sizeOf_lt_of_mem hnode
          simp only [VaultNode.folder.sizeOf_spec] at h4
          omega
        have hx12 : x.1.2 = cs2 := by rw [← heq]
        have hrec := ih (sizeOf cs2) (by omega) cs2 le_rfl cmp ep x.1.1 p
          (by rw [← hx12]; exact hpl)
        rcases hrec with ⟨f, hf1, hf2, hf3⟩
        exact ⟨f, mdFilesInTree_of_subfolder hnode hf1, hf2, hf3⟩

/-- C3: a page anywhere in the tree produced by folder-mode scanning
always stems from a markdown file of the scanned hierarchy whose path
differs from the entry document's path — the entry document itself is
never emitted as a page, at any depth. -/
theorem scanFolder_excludes_entry (cmp : String → String → Int)
    (entryPath name : String) (children : List VaultNode) (p : Page)
    (hp : p ∈ pagesInCategory (scanFolder cmp entryPath name children)) :
    ∃ f, f ∈ mdFilesInTree children ∧ f.path ≠ entryPath ∧ p = pageOfFile f :=
  scanFolder_excludes_entry_aux (sizeOf children) children le_rfl cmp
    entryPath name p hp

unseal scanFolder pagesInCategory List.mergeSort List.merge in
/-- Witness for C3 at a concrete two-file vault (one file being the
entry document). -/
theorem scanFolder_excludes_entry_witness :
    ∃ f, f ∈ mdFilesInTree
        [VaultNode.file ⟨"a.md", "a", "md", "root/a.md", none⟩,
         VaultNode.file ⟨"s.md", "s", "md", "root/s.md", none⟩] ∧
      f.path ≠ "root/s.md" ∧ (⟨"a", "a", []⟩ : Page) = pageOfFile f :=
  scanFolder_excludes_entry (fun _ _ => 0) "root/s.md" "Root"
    [VaultNode.file ⟨"a.md", "a", "md", "root/a.md", none⟩,
     VaultNode.file ⟨"s.md", "s", "md", "root/s.md", none⟩]
    ⟨"a", "a", []⟩ (by decide)

/-! ### C5 — sorted partitions, files before folders -/

theorem scanFolder_name (cmp : String → String → Int) (ep nm : String)
    (children : List VaultNode) : (scanFolder cmp ep nm children).name = nm := by
  rw [scanFolder.eq_def]
  rfl

theorem buildCategoryJSON_keys (bj : GMVaultJSONBuilder) (c : Category) :
    (buildCategoryJSON bj c).keys =
      "name" :: ((if c.pages.isEmpty then [] else ["pages"]) ++
        (if c.categories.isEmpty then [] else ["categories"])) := by
  obtain ⟨n, ps, cs⟩ := c
  by_cases hps : ps = [] <;> by_cases hcs : cs = [] <;>
    simp [buildCategoryJSON, JValue.keys, hps, hcs, Category.pages,
      Category.categories, List.length_eq_zero, List.isEmpty_iff]

/-- C5: the sub-categories of every scanned folder are its sub-folders in
sorted name order (sortedness plus a permutation pins the order); the
pages are the folder's markdown files, sorted by file name as an
independent partition, minus the entry document; and in the exported
JSON object the `pages` field precedes the `categories` field
(files-then-folders). -/
theorem scanFolder_ordering (cmp : String → String → Int)
    (htrans : ∀ a b c, cmp a b ≤ 0 → cmp b c ≤ 0 → cmp a c ≤ 0)
    (htot : ∀ a b, cmp a b ≤ 0 ∨ cmp b a ≤ 0)
    (entryPath name : String) (children : List VaultNode)
    (bj : GMVaultJSONBuilder) :
    List.Sorted (fun a b : String => cmp a b ≤ 0)
      ((scanFolder cmp entryPath name children).categories.map Category.name) ∧
    ((scanFolder cmp entryPath name children).categories.map Category.name).Perm
      ((subFoldersOf children).map Prod.fst) ∧
    (∃ fs : List FileNode, fs.Perm (mdFilesOf children) ∧
      List.Sorted (fun a b : FileNode => cmp a.name b.name ≤ 0) fs ∧
      (scanFolder cmp entryPath name children).pages =
        (fs.filter fun f => f.path ≠ entryPath).map pageOfFile) ∧
    (buildCategoryJSON bj (scanFolder cmp entryPath name children)).keys =
      "name" :: ((if (scanFolder cmp entryPath name children).pages.isEmpty
          then [] else ["pages"]) ++
        (if (scanFolder cmp entryPath name children).categories.isEmpty
          then [] else ["categories"])) := by
  have hnames : (scanFolder cmp entryPath name children).categories.map
      Category.name =
      ((subFoldersOf children).mergeSort (folderLe cmp)).map Prod.fst := by
    rw [scanFolder.eq_def]
    show (((subFoldersOf children).mergeSort (folderLe cmp)).attach.map
      (fun x => scanFolder cmp entryPath x.1.1 x.1.2)).map Category.name = _
    rw [List.map_map]
    have heq : (Category.name ∘ fun x :
        {x // x ∈ (subFoldersOf children).mergeSort (folderLe cmp)} =>
          scanFolder cmp entryPath x.1.1 x.1.2) =
        fun x :
        {x // x ∈ (subFoldersOf children).mergeSort (folderLe cmp)} =>
          Prod.fst x.1 := by
      funext x
      simp [Function.comp, scanFolder_name]
    rw [heq, List.attach_map_coe]
  have hsortedF : List.Pairwise (fun a b => folderLe cmp a b = true)
      ((subFoldersOf children).mergeSort (folderLe cmp)) := by
    apply List.sorted_mergeSort
    · intro a b c h1 h2
      simp only [folderLe, decide_eq_true_eq] at h1 h2 ⊢
      exact htrans _ _ _ h1 h2
    · intro a b
      rcases htot a.1 b.1 with h | h <;>
        simp [folderLe, h]
  refine ⟨?_, ?_, ?_, ?_⟩
  · show List.Pairwise _ _
    rw [hnames, List.pairwise_map]
    exact hsortedF.imp fun {_ _} h => by
      simpa [folderLe, decide_eq_true_eq] using h
  · rw [hnames]
    exact (List.mergeSort_perm (subFoldersOf children) (folderLe cmp)).map _
  · refine ⟨(mdFilesOf children).mergeSort (fileLe cmp),
      List.mergeSort_perm _ _, ?_, ?_⟩
    · have hsorted : List.Pairwise (fun a b => fileLe cmp a b = true)
          ((mdFilesOf children).mergeSort (fileLe cmp)) := by
        apply List.sorted_mergeSort
        · intro a b c h1 h2
          simp only [fileLe, decide_eq_true_eq] at h1 h2 ⊢
          exact htrans _ _ _ h1 h2
        · intro a b
          rcases htot a.name b.name with h | h <;>
            simp [fileLe, h]
      show List.Pairwise _ _
      exact hsorted.imp fun {_ _} h => by
        simpa [fileLe, decide_eq_true_eq] using h
    · rw [scanFolder.eq_def]
      rfl
  · exact buildCategoryJSON_keys bj _

/-- Witness for C5 at a concrete folder and (degenerate but total and
transitive) comparator. -/
theorem scanFolder_ordering_witness :
    List.Sorted (fun _ _ : String => (0 : Int) ≤ 0)
      ((scanFolder (fun _ _ => 0) "e" "Root"
        [VaultNode.folder "B" [], VaultNode.folder "A" []]).categories.map
          Category.name) := by
  have h := (scanFolder_ordering (fun _ _ => (0 : Int))
    (fun _ _ _ _ _ => le_refl 0) (fun _ _ => Or.inl (le_refl 0)) "e" "Root"
    [VaultNode.folder "B" [], VaultNode.folder "A" []] ⟨"http://h"⟩).1
  exact h

/-! ### C9 — URL absolutization (amended theorem) -/

theorem jsLower_eq_lt {c : Char} (h : jsLower c = '<') : c = '<' := by
  unfold jsLower at h
  split at h
  · rename_i hr
    have := toNat_ofNat_small (c.toNat + 32) (by omega)
    rw [h] at this
    simp only [show ('<').toNat = 60 from by decide] at this
    omega
  · exact h

theorem startsWithCI_append_self : ∀ (p r : List Char),
    startsWithCI p (p ++ r) = true
  | [], _ => rfl
  | c :: ps, r => by
    simp only [List.cons_append, startsWithCI, beq_self_eq_true, Bool.true_and]
    exact startsWithCI_append_self ps r

theorem convGo_cons_of_not_match {tagCI tmplPre pat base : List Char}
    {c : Char} {rest : List Char}
    (h : startsWithCI tagCI (c :: rest) = false) :
    convGo tagCI tmplPre pat base (c :: rest) =
      c :: convGo tagCI tmplPre pat base rest := by
  rw [convGo.eq_def]
  simp only [h, Bool.false_eq_true, if_false]

theorem convGo_no_lt {tagTail tmplPre pat base : List Char} :
    ∀ {l : List Char}, (∀ c ∈ l, c ≠ '<') →
      convGo ('<' :: tagTail) tmplPre pat base l = l
  | [], _ => by rw [convGo.eq_def]
  | c :: rest, h => by
    have hsw : startsWithCI ('<' :: tagTail) (c :: rest) = false := by
      simp only [startsWithCI, Bool.and_eq_false_iff]
      left
      simp only [beq_eq_false_iff_ne, ne_eq]
      intro heq
      exact h c (List.mem_cons_self _ _)
        (jsLower_eq_lt (by simpa [jsLower] using heq.symm))
    rw [convGo_cons_of_not_match hsw,
      convGo_no_lt fun x hx => h x (List.mem_cons_of_mem _ hx)]

theorem collapseWsGo_of_no_ws : ∀ {l : List Char} {bst : Bool},
    (∀ c ∈ l, isJsWs c = false) → collapseWsGo bst l = l
  | [], _, _ => rfl
  | c :: rest, bst, h => by
    unfold collapseWsGo
    rw [if_neg (by simp [h c (List.mem_cons_self _ _)]),
      collapseWsGo_of_no_ws fun x hx => h x (List.mem_cons_of_mem _ hx)]

theorem collapseWsGo_nonws_left {B : List Char}
    (hB : ∀ c ∈ B, isJsWs c = false) :
    ∀ t, collapseWsGo false (B ++ t) = B ++ collapseWsGo false t := by
  induction B with
  | nil => intro t; simp
  | cons b B ih =>
    intro t
    rw [List.cons_append]
    simp only [collapseWsGo]
    rw [if_neg (by simp [hB b (List.mem_cons_self _ _)]),
      ih (fun x hx => hB x (List.mem_cons_of_mem _ hx)) t]
    simp

theorem collapseWsGo_true_head : ∀ {t : List Char},
    (∀ x, t.head? = some x → isJsWs x = false) →
    collapseWsGo true t = collapseWsGo false t
  | [], _ => rfl
  | c :: r, h => by
    have hc : isJsWs c = false := h c rfl
    simp only [collapseWsGo]
    rw [if_neg (by simp [hc]), if_neg (by simp [hc])]

theorem collapseWsGo_append_singleton {q : Char} (hq : isJsWs q = false) :
    ∀ (b : Bool) (l : List Char),
      collapseWsGo b (l ++ [q]) = collapseWsGo b l ++ [q]
  | b, [] => by simp [collapseWsGo, hq]
  | b, c :: l => by
    rw [List.cons_append]
    simp only [collapseWsGo]
    by_cases hc : isJsWs c = true
    · rw [if_pos hc, if_pos hc]
      cases b with
      | false =>
        simp only [Bool.false_eq_true, if_false]
        rw [collapseWsGo_append_singleton hq true l]
        simp
      | true =>
        rw [if_pos rfl, if_pos rfl]
        exact collapseWsGo_append_singleton hq true l
    · rw [if_neg hc, if_neg hc]
      rw [collapseWsGo_append_singleton hq false l]
      simp

theorem mem_collapseWsGo : ∀ {b : Bool} {l : List Char} {c : Char},
    c ∈ collapseWsGo b l → c ∈ l ∨ c = ' '
  | _, [], _, h => by simp [collapseWsGo] at h
  | b, d :: rest, c, h => by
    simp only [collapseWsGo] at h
    by_cases hd : isJsWs d = true
    · rw [if_pos hd] at h
      cases b with
      | true =>
        rw [if_pos rfl] at h
        rcases mem_collapseWsGo h with h1 | h1
        · exact Or.inl (List.mem_cons_of_mem _ h1)
        · exact Or.inr h1
      | false =>
        rw [if_neg (by simp)] at h
        rcases List.mem_cons.mp h with rfl | h1
        · exact Or.inr rfl
        · rcases mem_collapseWsGo h1 with h2 | h2
          · exact Or.inl (List.mem_cons_of_mem _ h2)
          · exact Or.inr h2
    · rw [if_neg hd] at h
      rcases List.mem_cons.mp h with rfl | h1
      · exact Or.inl (List.mem_cons_self _ _)
      · rcases mem_collapseWsGo h1 with h2 | h2
        · exact Or.inl (List.mem_cons_of_mem _ h2)
        · exact Or.inr h2

theorem jsTrim_of_ends {l : List Char} {c0 cl : Char}
    (hhead : l.head? = some c0) (h0 : isJsWs c0 = false)
    (hlast : l.getLast? = some cl) (hl : isJsWs cl = false) :
    jsTrim l = l := by
  unfold jsTrim dropEnd
  have h1 : l.dropWhile isJsWs = l :=
    dropWhile_eq_self_of_head fun d hd => by
      rw [hhead] at hd
      cases hd
      exact h0
  rw [h1]
  have h2 : l.reverse.dropWhile isJsWs = l.reverse :=
    dropWhile_eq_self_of_head fun d hd => by
      rw [List.head?_reverse, hlast] at hd
      cases hd
      exact hl
  rw [h2, List.reverse_reverse]

theorem startsWithCI_cons_false {p : Char} {ps l : List Char} {c : Char}
    (h : (jsLower p == jsLower c) = false) :
    startsWithCI (p :: ps) (c :: l) = false := by
  simp only [startsWithCI, h, Bool.false_and]

theorem startsWithCI_nil_right {p : Char} {ps : List Char} :
    startsWithCI (p :: ps) [] = false := rfl

theorem jsLower_eq_quote {c : Char} (h : jsLower c = '"') : c = '"' := by
  unfold jsLower at h
  split at h
  · rename_i hr
    have := toNat_ofNat_small (c.toNat + 32) (by omega)
    rw [h] at this
    simp only [show ('"').toNat = 34 from by decide] at this
    omega
  · exact h

theorem startsWithCI_quote_align :
    ∀ {P w rest : List Char}, (∀ c ∈ P, c.toNat ≠ 34) →
      (∀ c ∈ w, c.toNat ≠ 34) →
      startsWithCI (P ++ ['"']) (w ++ ('"' :: rest)) = true →
      P.length = w.length
  | [], [], _, _, _, _ => rfl
  | [], a :: w', _, _, hw, h => by
    simp only [List.nil_append, List.cons_append, startsWithCI,
      Bool.and_eq_true] at h
    have hla : jsLower a = '"' := by
      have hb := h.1
      rw [beq_iff_eq] at hb
      rw [show jsLower ('"') = '"' from by decide] at hb
      exact hb.symm
    exact absurd (by rw [jsLower_eq_quote hla]; decide : a.toNat = 34)
      (hw a (List.mem_cons_self _ _))
  | q :: P', [], _, hP, _, h => by
    simp only [List.nil_append, List.cons_append, startsWithCI,
      Bool.and_eq_true] at h
    have hlq : jsLower q = '"' := by
      have hb := h.1
      rw [beq_iff_eq] at hb
      rw [show jsLower ('"') = '"' from by decide] at hb
      exact hb
    exact absurd (by rw [jsLower_eq_quote hlq]; decide : q.toNat = 34)
      (hP q (List.mem_cons_self _ _))
  | q :: P', a :: w', _, hP, hw, h => by
    simp only [List.nil_append, List.cons_append, startsWithCI,
      Bool.and_eq_true] at h
    have hlen := startsWithCI_quote_align
      (fun x hx => hP x (List.mem_cons_of_mem _ hx))
      (fun x hx => hw x (List.mem_cons_of_mem _ hx)) h.2
    simp [hlen]

theorem findAttrCands_chunk_skip {p : Char} {ps : List Char} :
    ∀ {chunk tail acc : List Char},
      (∀ c ∈ chunk, (jsLower p == jsLower c) = false ∧ c.toNat ≠ 62) →
      findAttrCands (p :: ps) acc (chunk ++ tail) =
        findAttrCands (p :: ps) (chunk.reverse ++ acc) tail
  | [], tail, acc, _ => by simp
  | c :: ch, tail, acc, h => by
    have h1 := h c (List.mem_cons_self _ _)
    rw [List.cons_append, findAttrCands.eq_def]
    simp only [startsWithCI_cons_false h1.1, Bool.false_eq_true, if_false,
      List.nil_append]
    rw [if_neg h1.2,
      findAttrCands_chunk_skip (fun x hx => h x (List.mem_cons_of_mem _ hx))]
    simp

theorem urlValue_gt (g a : List Char) : urlValue g a ['>'] = none := by
  simp only [urlValue]
  rw [if_neg (by decide)]

theorem urlCandOk_gt (g : List Char) : urlCandOk (g, ['>']) = none := by
  cases g with
  | nil => rfl
  | cons g0 gr =>
    show (if isJsWs g0 then
        if attrsEndOk ((g0 :: gr).dropWhile isJsWs) then
          urlValue (g0 :: gr) ((g0 :: gr).dropWhile isJsWs) ['>']
        else none
      else none) = none
    rw [urlValue_gt]
    split
    · split
      · rfl
      · rfl
    · rfl

theorem findAttrCands_vtail_fail {p : Char} {qs : List Char}
    (hpat34 : ∀ c ∈ p :: qs, c.toNat ≠ 34) :
    ∀ {v acc : List Char}, (∀ c ∈ v, c.toNat ≠ 34) →
      ∀ cand ∈ findAttrCands (p :: (qs ++ ['"'])) acc (v ++ ['"', '>']),
        urlCandOk cand = none
  | [], acc, _, cand, hc => by
    have hsw1 : startsWithCI (p :: (qs ++ ['"'])) ('"' :: ['>']) = false := by
      apply startsWithCI_cons_false
      rw [beq_eq_false_iff_ne]
      intro he
      have hp : p = '"' := jsLower_eq_quote (by rw [he]; decide)
      exact hpat34 p (List.mem_cons_self _ _) (by rw [hp]; decide)
    have hsw2 : startsWithCI (p :: (qs ++ ['"'])) ['>'] = false := by
      show ((jsLower p == jsLower '>') && startsWithCI (qs ++ ['"']) []) = false
      cases hq : qs ++ ['"'] with
      | nil => exact absurd hq (by simp)
      | cons q Q =>
        rw [startsWithCI_nil_right, Bool.and_false]
    rw [List.nil_append, findAttrCands.eq_def] at hc
    simp only [hsw1, Bool.false_eq_true, if_false, List.nil_append] at hc
    rw [if_neg (by decide : ¬(('"').toNat = 62))] at hc
    rw [findAttrCands.eq_def] at hc
    simp only [hsw2, Bool.false_eq_true, if_false] at hc
    rw [if_pos (by decide : ('>').toNat = 62)] at hc
    exact absurd hc (List.not_mem_nil _)
  | c :: v', acc, hv, cand, hc => by
    rw [List.cons_append, findAttrCands.eq_def] at hc
    by_cases hswb : startsWithCI (p :: (qs ++ ['"']))
        (c :: (v' ++ ['"', '>'])) = true
    · have hsw2 : startsWithCI ((p :: qs) ++ ['"'])
          ((c :: v') ++ ('"' :: ['>'])) = true := by
        rw [List.cons_append, List.cons_append]
        exact hswb
      have hlen := startsWithCI_quote_align hpat34 hv hsw2
      have hlen' : qs.length = v'.length := by simpa using hlen
      have hafter : (c :: (v' ++ ['"', '>'])).drop
          (p :: (qs ++ ['"'])).length = ['>'] := by
        rw [show c :: (v' ++ ['"', '>']) = ((c :: v') ++ ['"']) ++ ['>'] from by
          simp]
        apply List.drop_left'
        simp only [List.length_append, List.length_cons, List.length_nil]
        omega
      simp only [hswb, if_true, hafter] at hc
      by_cases hgt : c.toNat = 62
      · rw [if_pos hgt] at hc
        rcases List.mem_singleton.mp hc with rfl
        exact urlCandOk_gt _
      · rw [if_neg hgt] at hc
        rcases List.mem_append.mp hc with h1 | h2
        · rcases List.mem_singleton.mp h1 with rfl
          exact urlCandOk_gt _
        · exact findAttrCands_vtail_fail hpat34
            (fun x hx => hv x (List.mem_cons_of_mem _ hx)) cand h2
    · have hsw' : startsWithCI (p :: (qs ++ ['"']))
          (c :: (v' ++ ['"', '>'])) = false := Bool.eq_false_iff.mpr hswb
      simp only [hsw', Bool.false_eq_true, if_false, List.nil_append] at hc
      by_cases hgt : c.toNat = 62
      · rw [if_pos hgt] at hc
        exact absurd hc (List.not_mem_nil _)
      · rw [if_neg hgt] at hc
        exact findAttrCands_vtail_fail hpat34
          (fun x hx => hv x (List.mem_cons_of_mem _ hx)) cand hc

theorem findSome?_append_none {α β : Type} {f : α → Option β}
    {l₁ l₂ : List α} (h : ∀ x ∈ l₁, f x = none) :
    (l₁ ++ l₂).findSome? f = l₂.findSome? f := by
  rw [List.findSome?_append, List.findSome?_eq_none_iff.mpr h]
  rfl

theorem pickUrlCand_eval_ws {p : Char} {qs v : List Char}
    (hpsp : (jsLower p == jsLower ' ') = false)
    (hpgt : p.toNat ≠ 62)
    (hmiss : ∀ c ∈ qs ++ ['"'], (jsLower p == jsLower c) = false ∧ c.toNat ≠ 62)
    (hpat34 : ∀ c ∈ p :: qs, c.toNat ≠ 34)
    (hv34 : ∀ c ∈ v, c.toNat ≠ 34) :
    pickUrlCand (p :: (qs ++ ['"']))
        (' ' :: ((p :: (qs ++ ['"'])) ++ (v ++ ['"', '>']))) =
      (if 2 ≤ v.length ∧ v.head? = some '/' then some ([' '], none, v)
       else none) := by
  have hA : findAttrCands (p :: (qs ++ ['"'])) ([] : List Char)
      (' ' :: ((p :: (qs ++ ['"'])) ++ (v ++ ['"', '>']))) =
      findAttrCands (p :: (qs ++ ['"'])) [' ']
        ((p :: (qs ++ ['"'])) ++ (v ++ ['"', '>'])) := by
    rw [findAttrCands.eq_def]
    simp [startsWithCI_cons_false hpsp]
  have hsw : startsWithCI (p :: (qs ++ ['"']))
      (p :: ((qs ++ ['"']) ++ (v ++ ['"', '>']))) = true := by
    rw [← List.cons_append]
    exact startsWithCI_append_self _ _
  have hdrop : List.drop (p :: (qs ++ ['"'])).length
      (p :: ((qs ++ ['"']) ++ (v ++ ['"', '>']))) = v ++ ['"', '>'] := by
    rw [← List.cons_append]
    exact List.drop_left _ _
  have hB : findAttrCands (p :: (qs ++ ['"'])) [' ']
      ((p :: (qs ++ ['"'])) ++ (v ++ ['"', '>'])) =
      ([' '], v ++ ['"', '>']) ::
        findAttrCands (p :: (qs ++ ['"'])) [p, ' ']
          ((qs ++ ['"']) ++ (v ++ ['"', '>'])) := by
    rw [List.cons_append, findAttrCands.eq_def]
    simp only [hsw, if_true, hdrop, if_neg hpgt, List.reverse_cons,
      List.reverse_nil, List.nil_append, List.singleton_append]
  have hC : findAttrCands (p :: (qs ++ ['"'])) [p, ' ']
      ((qs ++ ['"']) ++ (v ++ ['"', '>'])) =
      findAttrCands (p :: (qs ++ ['"'])) ((qs ++ ['"']).reverse ++ [p, ' '])
        (v ++ ['"', '>']) :=
    findAttrCands_chunk_skip hmiss
  have htail : ∀ cand ∈ findAttrCands (p :: (qs ++ ['"']))
      ((qs ++ ['"']).reverse ++ [p, ' ']) (v ++ ['"', '>']),
      urlCandOk cand = none :=
    fun cand hc => findAttrCands_vtail_fail hpat34 hv34 cand hc
  unfold pickUrlCand
  rw [hA, hB, hC]
  rw [show (([' '], v ++ ['"', '>']) ::
      findAttrCands (p :: (qs ++ ['"'])) ((qs ++ ['"']).reverse ++ [p, ' '])
        (v ++ ['"', '>'])).reverse =
      (findAttrCands (p :: (qs ++ ['"'])) ((qs ++ ['"']).reverse ++ [p, ' '])
        (v ++ ['"', '>'])).reverse ++ [([' '], v ++ ['"', '>'])] from by simp]
  rw [findSome?_append_none (fun x hx => htail x (List.mem_reverse.mp hx))]
  have hvtake : (v ++ ['"', '>']).takeWhile (fun c => c.toNat ≠ 34) = v :=
    takeWhile_append_stop (fun c hc => by simp [hv34 c hc]) (by decide)
  simp only [List.findSome?_cons, List.findSome?_nil]
  unfold urlCandOk
  simp only [if_pos (by decide : isJsWs ' ' = true)]
  have hdw : ([' '] : List Char).dropWhile isJsWs = [] := by decide
  rw [hdw]
  have hend : attrsEndOk ([] : List Char) = true := by decide
  rw [hend, if_pos rfl]
  unfold urlValue
  rw [hvtake]
  by_cases hcond : 2 ≤ v.length ∧ v.head? = some '/'
  · rw [if_pos hcond, if_pos hcond,
      List.drop_left' (rfl : v.length = v.length)]
    simp
  · rw [if_neg hcond, if_neg hcond]

theorem urlRepl_eval_ws {tagTail : List Char} {p : Char} {ps nb v : List Char}
    (htag : ∀ c ∈ tagTail, isJsWs c = false)
    (hp : isJsWs p = false) (hps : ∀ c ∈ ps, isJsWs c = false)
    (hnb : ∀ c ∈ nb, isJsWs c = false) :
    urlRepl ('<' :: (tagTail ++ [' '])) (p :: ps) nb none v =
      ('<' :: tagTail) ++
        (' ' :: ((p :: ps) ++ (nb ++ (collapseWsGo false v ++ ['"'])))) := by
  unfold urlRepl
  have harg : '<' :: (tagTail ++ [' ']) ++ (none : Option (List Char)).getD [] ++
      (p :: ps) ++ nb ++ v ++ ['"'] =
      ('<' :: tagTail) ++ (' ' :: ((p :: ps) ++ (nb ++ (v ++ ['"'])))) := by
    simp
  rw [harg]
  have hAtag : ∀ c ∈ ('<' :: tagTail), isJsWs c = false := by
    intro c hc
    rcases List.mem_cons.mp hc with rfl | h1
    · decide
    · exact htag c h1
  rw [collapseWsGo_nonws_left hAtag]
  have hstep : collapseWsGo false (' ' :: ((p :: ps) ++ (nb ++ (v ++ ['"'])))) =
      ' ' :: collapseWsGo true ((p :: ps) ++ (nb ++ (v ++ ['"']))) := by
    simp only [collapseWsGo]
    rw [if_pos (by decide), if_neg (by simp)]
  rw [hstep]
  have htrue : collapseWsGo true ((p :: ps) ++ (nb ++ (v ++ ['"']))) =
      collapseWsGo false ((p :: ps) ++ (nb ++ (v ++ ['"']))) := by
    apply collapseWsGo_true_head
    intro x hx
    rw [List.cons_append, List.head?_cons, Option.some_inj] at hx
    rw [← hx]
    exact hp
  rw [htrue]
  have hppfx : ∀ c ∈ (p :: ps), isJsWs c = false := by
    intro c hc
    rcases List.mem_cons.mp hc with rfl | h1
    · exact hp
    · exact hps c h1
  rw [collapseWsGo_nonws_left hppfx, collapseWsGo_nonws_left hnb,
    collapseWsGo_append_singleton (by decide) false v]
  have hlast : (('<' :: tagTail) ++
      (' ' :: ((p :: ps) ++ (nb ++ (collapseWsGo false v ++ ['"']))))).getLast? =
      some '"' := by
    rw [show ('<' :: tagTail) ++
        (' ' :: ((p :: ps) ++ (nb ++ (collapseWsGo false v ++ ['"'])))) =
        (('<' :: tagTail) ++
          (' ' :: ((p :: ps) ++ (nb ++ collapseWsGo false v)))) ++ ['"'] from by
        simp]
    exact List.getLast?_concat _
  have hJ : jsTrim (('<' :: tagTail) ++
      (' ' :: ((p :: ps) ++ (nb ++ (collapseWsGo false v ++ ['"']))))) =
      ('<' :: tagTail) ++
        (' ' :: ((p :: ps) ++ (nb ++ (collapseWsGo false v ++ ['"'])))) :=
    jsTrim_of_ends rfl (by decide) hlast (by decide)
  rw [hJ]

theorem convGo_rewrite_eval_ws {tagTail : List Char} {p : Char}
    {ps nb v : List Char}
    (htag : ∀ c ∈ tagTail, isJsWs c = false)
    (hp : isJsWs p = false) (hps : ∀ c ∈ ps, isJsWs c = false)
    (hnb : ∀ c ∈ nb, isJsWs c = false)
    (hpick : pickUrlCand (p :: ps) (' ' :: ((p :: ps) ++ (v ++ ['"', '>']))) =
      some ([' '], none, v))
    (hv2 : v.take 2 ≠ ['/', '/']) :
    convGo ('<' :: tagTail) (('<' :: tagTail) ++ [' ']) (p :: ps) nb
      (('<' :: tagTail) ++ (' ' :: ((p :: ps) ++ (v ++ ['"', '>'])))) =
      ('<' :: tagTail) ++ (' ' :: ((p :: ps) ++
        (nb ++ (collapseWsGo false v ++ ['"', '>'])))) := by
  have hsw : startsWithCI ('<' :: tagTail)
      ('<' :: (tagTail ++ (' ' :: ((p :: ps) ++ (v ++ ['"', '>']))))) = true := by
    rw [← List.cons_append]
    exact startsWithCI_append_self _ _
  have hdrop0 : List.drop ('<' :: tagTail).length
      ('<' :: (tagTail ++ (' ' :: ((p :: ps) ++ (v ++ ['"', '>']))))) =
      ' ' :: ((p :: ps) ++ (v ++ ['"', '>'])) := by
    rw [← List.cons_append]
    exact List.drop_left _ _
  rw [List.cons_append, List.cons_append]
  simp only [convGo, hsw, if_true, hdrop0, hpick]
  rw [if_neg hv2]
  have hused : tagTail ++ (' ' :: ((p :: ps) ++ (v ++ ['"', '>']))) =
      (tagTail ++ (' ' :: ((p :: ps) ++ (v ++ ['"'])))) ++ ['>'] := by
    simp
  have hdrop1 : (tagTail ++ (' ' :: ((p :: ps) ++ (v ++ ['"', '>'])))).drop
      (('<' :: tagTail).length + ([' '] : List Char).length +
        (p :: ps).length + v.length) = ['>'] := by
    rw [hused]
    apply List.drop_left'
    simp
    omega
  rw [hdrop1, convGo_no_lt (by decide), urlRepl_eval_ws htag hp hps hnb]
  simp

theorem convGo_cons_of_none {tagCI tmplPre pat base : List Char}
    {c : Char} {rest : List Char}
    (hsw : startsWithCI tagCI (c :: rest) = true)
    (hpick : pickUrlCand pat ((c :: rest).drop tagCI.length) = none) :
    convGo tagCI tmplPre pat base (c :: rest) =
      c :: convGo tagCI tmplPre pat base rest := by
  rw [convGo.eq_def]
  simp only [hsw, if_true, hpick]

theorem convGo_ci_mismatch_skip {u : Char} {T tmplPre pat base rest : List Char}
    {c : Char} (hne : (jsLower u == jsLower c) = false)
    (hrest : ∀ x ∈ c :: rest, x ≠ '<') :
    convGo ('<' :: u :: T) tmplPre pat base ('<' :: c :: rest) =
      '<' :: c :: rest := by
  have hsw : startsWithCI ('<' :: u :: T) ('<' :: c :: rest) = false := by
    simp only [startsWithCI, hne, Bool.false_and, Bool.and_false]
  rw [convGo_cons_of_not_match hsw, convGo_no_lt hrest]

theorem all_ne_lt_parts4 {A B C D : List Char}
    (hA : ∀ c ∈ A, c ≠ '<') (hB : ∀ c ∈ B, c ≠ '<')
    (hC : ∀ c ∈ C, c ≠ '<') (hD : ∀ c ∈ D, c ≠ '<') :
    ∀ c ∈ A ++ (B ++ (C ++ D)), c ≠ '<' := by
  intro c hc
  rcases List.mem_append.mp hc with h | h
  · exact hA c h
  · rcases List.mem_append.mp h with h | h
    · exact hB c h
    · rcases List.mem_append.mp h with h | h
      · exact hC c h
      · exact hD c h

theorem stripTrailingSlash_subset {l : List Char} :
    ∀ c ∈ stripTrailingSlash l, c ∈ l := by
  intro c hc
  unfold stripTrailingSlash at hc
  split at hc
  · split at hc
    · exact List.dropLast_subset _ hc
    · exact hc
  · exact hc

theorem convGo_protocol_eval {tagTail tmplPre base : List Char} {p : Char}
    {ps v : List Char}
    (hpick : pickUrlCand (p :: ps) (' ' :: ((p :: ps) ++ (v ++ ['"', '>']))) =
      some ([' '], none, v))
    (hv2 : v.take 2 = ['/', '/']) :
    convGo ('<' :: tagTail) tmplPre (p :: ps) base
      (('<' :: tagTail) ++ (' ' :: ((p :: ps) ++ (v ++ ['"', '>'])))) =
      ('<' :: tagTail) ++ (' ' :: ((p :: ps) ++ (v ++ ['"', '>']))) := by
  have hsw : startsWithCI ('<' :: tagTail)
      ('<' :: (tagTail ++ (' ' :: ((p :: ps) ++ (v ++ ['"', '>']))))) = true := by
    rw [← List.cons_append]
    exact startsWithCI_append_self _ _
  have hdrop0 : List.drop ('<' :: tagTail).length
      ('<' :: (tagTail ++ (' ' :: ((p :: ps) ++ (v ++ ['"', '>']))))) =
      ' ' :: ((p :: ps) ++ (v ++ ['"', '>'])) := by
    rw [← List.cons_append]
    exact List.drop_left _ _
  rw [List.cons_append]
  simp only [convGo, hsw, if_true, hdrop0, hpick]
  rw [if_pos hv2]
  have hused : tagTail ++ (' ' :: ((p :: ps) ++ (v ++ ['"', '>']))) =
      (tagTail ++ (' ' :: ((p :: ps) ++ (v ++ ['"'])))) ++ ['>'] := by
    simp
  have hdrop1 : (tagTail ++ (' ' :: ((p :: ps) ++ (v ++ ['"', '>'])))).drop
      (('<' :: tagTail).length + ([' '] : List Char).length +
        (p :: ps).length + v.length) = ['>'] := by
    rw [hused]
    apply List.drop_left'
    simp
    omega
  rw [hdrop1, convGo_no_lt (by decide)]
  have htake : List.take
      (('<' :: tagTail).length + ([' '] : List Char).length +
        (p :: ps).length + v.length + 1)
      ('<' :: (tagTail ++ (' ' :: ((p :: ps) ++ (v ++ ['"', '>']))))) =
      '<' :: (tagTail ++ (' ' :: ((p :: ps) ++ (v ++ ['"'])))) := by
    rw [show '<' :: (tagTail ++ (' ' :: ((p :: ps) ++ (v ++ ['"', '>'])))) =
      ('<' :: (tagTail ++ (' ' :: ((p :: ps) ++ (v ++ ['"']))))) ++ ['>'] from by
        simp]
    apply List.take_left'
    simp
    omega
  rw [htake]
  simp

theorem convGo_none_eval {tagTail tmplPre base : List Char} {p : Char}
    {ps w : List Char}
    (htag : ∀ c ∈ tagTail, c ≠ '<')
    (hpslt : ∀ c ∈ p :: ps, c ≠ '<')
    (hwlt : ∀ c ∈ w, c ≠ '<')
    (hpick : pickUrlCand (p :: ps) (' ' :: ((p :: ps) ++ (w ++ ['"', '>']))) =
      none) :
    convGo ('<' :: tagTail) tmplPre (p :: ps) base
      (('<' :: tagTail) ++ (' ' :: ((p :: ps) ++ (w ++ ['"', '>'])))) =
      ('<' :: tagTail) ++ (' ' :: ((p :: ps) ++ (w ++ ['"', '>']))) := by
  have hsw : startsWithCI ('<' :: tagTail)
      ('<' :: (tagTail ++ (' ' :: ((p :: ps) ++ (w ++ ['"', '>']))))) = true := by
    rw [← List.cons_append]
    exact startsWithCI_append_self _ _
  have hdrop0 : List.drop ('<' :: tagTail).length
      ('<' :: (tagTail ++ (' ' :: ((p :: ps) ++ (w ++ ['"', '>']))))) =
      ' ' :: ((p :: ps) ++ (w ++ ['"', '>'])) := by
    rw [← List.cons_append]
    exact List.drop_left _ _
  have hpick' : pickUrlCand (p :: ps)
      (List.drop ('<' :: tagTail).length
        ('<' :: (tagTail ++ (' ' :: ((p :: ps) ++ (w ++ ['"', '>'])))))) =
      none := by
    rw [hdrop0]
    exact hpick
  have hall : ∀ x ∈ tagTail ++ (' ' :: ((p :: ps) ++ (w ++ ['"', '>']))),
      x ≠ '<' := by
    intro x hx
    rcases List.mem_append.mp hx with h | h
    · exact htag x h
    · rcases List.mem_cons.mp h with rfl | h
      · decide
      · rcases List.mem_append.mp h with h | h
        · exact hpslt x h
        · rcases List.mem_append.mp h with h | h
          · exact hwlt x h
          · rcases List.mem_cons.mp h with rfl | h
            · decide
            · rcases List.mem_singleton.mp h with rfl
              decide
  rw [List.cons_append, convGo_cons_of_none hsw hpick', convGo_no_lt hall]

unseal convGo in
/-- C9 (amended): with the trailing slash stripped from the base URL
first, an anchor `href` (or image `src`) value that begins with `/`, has
at least one further character and is not protocol-relative gets the
stripped base prepended and — because the replacement template is passed
through `.replace(/\s+/g, ' ')` — every whitespace run inside the value
is collapsed to a single space; for a whitespace-free value the rewrite
is therefore prepend-only; a protocol-relative `//` value is left
verbatim (anchors and images alike); and a second invocation changes
neither the anchor nor the image output provided the stripped base is
non-empty and does not itself begin with `/`.  (The spec's unconditional
claims fail on the value `/` alone and on site-relative bases such as
`/api` — see the counterexample.) -/
theorem convertRelativeUrls_spec (baseUrl v : List Char)
    (hbase : ∀ c ∈ baseUrl, c.toNat ≠ 34 ∧ isJsWs c = false ∧ c ≠ '<')
    (hv : ∀ c ∈ v, c.toNat ≠ 34 ∧ c ≠ '<')
    (hvhead : v.head? = some '/') (hvlen : 2 ≤ v.length) :
    (v.take 2 ≠ ['/', '/'] →
      convertRelativeUrls baseUrl ("<a href=\"".data ++ (v ++ "\">".data)) =
        "<a href=\"".data ++ (stripTrailingSlash baseUrl ++
          (collapseWsGo false v ++ "\">".data))) ∧
    (v.take 2 ≠ ['/', '/'] →
      convertRelativeUrls baseUrl ("<img src=\"".data ++ (v ++ "\">".data)) =
        "<img src=\"".data ++ (stripTrailingSlash baseUrl ++
          (collapseWsGo false v ++ "\">".data))) ∧
    ((∀ c ∈ v, isJsWs c = false) → v.take 2 ≠ ['/', '/'] →
      convertRelativeUrls baseUrl ("<a href=\"".data ++ (v ++ "\">".data)) =
        "<a href=\"".data ++ (stripTrailingSlash baseUrl ++ (v ++ "\">".data))) ∧
    (v.take 2 = ['/', '/'] →
      convertRelativeUrls baseUrl ("<a href=\"".data ++ (v ++ "\">".data)) =
        "<a href=\"".data ++ (v ++ "\">".data) ∧
      convertRelativeUrls baseUrl ("<img src=\"".data ++ (v ++ "\">".data)) =
        "<img src=\"".data ++ (v ++ "\">".data)) ∧
    (stripTrailingSlash baseUrl ≠ [] →
      (stripTrailingSlash baseUrl).head? ≠ some '/' →
      v.take 2 ≠ ['/', '/'] →
      convertRelativeUrls baseUrl
          (convertRelativeUrls baseUrl ("<a href=\"".data ++ (v ++ "\">".data))) =
        convertRelativeUrls baseUrl ("<a href=\"".data ++ (v ++ "\">".data)) ∧
      convertRelativeUrls baseUrl
          (convertRelativeUrls baseUrl
            ("<img src=\"".data ++ (v ++ "\">".data))) =
        convertRelativeUrls baseUrl ("<img src=\"".data ++ (v ++ "\">".data))) := by
  have hv34 : ∀ c ∈ v, c.toNat ≠ 34 := fun c hc => (hv c hc).1
  have hvlt : ∀ c ∈ v, c ≠ '<' := fun c hc => (hv c hc).2
  have hnball : ∀ c ∈ stripTrailingSlash baseUrl,
      c.toNat ≠ 34 ∧ isJsWs c = false ∧ c ≠ '<' :=
    fun c hc => hbase c (stripTrailingSlash_subset c hc)
  have hnbws : ∀ c ∈ stripTrailingSlash baseUrl, isJsWs c = false :=
    fun c hc => (hnball c hc).2.1
  have hnblt : ∀ c ∈ stripTrailingSlash baseUrl, c ≠ '<' :=
    fun c hc => (hnball c hc).2.2
  have hnb34 : ∀ c ∈ stripTrailingSlash baseUrl, c.toNat ≠ 34 :=
    fun c hc => (hnball c hc).1
  have hCv : ∀ c ∈ collapseWsGo false v, c.toNat ≠ 34 ∧ c ≠ '<' := by
    intro c hc
    rcases mem_collapseWsGo hc with h1 | rfl
    · exact hv c h1
    · exact ⟨by decide, by decide⟩
  have hCvlt : ∀ c ∈ collapseWsGo false v, c ≠ '<' := fun c hc => (hCv c hc).2
  have hCv34 : ∀ c ∈ collapseWsGo false v, c.toNat ≠ 34 := fun c hc => (hCv c hc).1
  have hpickA0 : pickUrlCand ('h' :: (['r', 'e', 'f', '='] ++ ['"']))
      (' ' :: (('h' :: (['r', 'e', 'f', '='] ++ ['"'])) ++ (v ++ ['"', '>']))) =
      (if 2 ≤ v.length ∧ v.head? = some '/' then some ([' '], none, v)
       else none) :=
    pickUrlCand_eval_ws (by decide) (by decide) (by decide) (by decide) hv34
  have hpickA : pickUrlCand ('h' :: ['r', 'e', 'f', '=', '"'])
      (' ' :: (('h' :: ['r', 'e', 'f', '=', '"']) ++ (v ++ ['"', '>']))) =
      some ([' '], none, v) := by
    rw [if_pos ⟨hvlen, hvhead⟩] at hpickA0
    exact hpickA0
  have hpickI0 : pickUrlCand ('s' :: (['r', 'c', '='] ++ ['"']))
      (' ' :: (('s' :: (['r', 'c', '='] ++ ['"'])) ++ (v ++ ['"', '>']))) =
      (if 2 ≤ v.length ∧ v.head? = some '/' then some ([' '], none, v)
       else none) :=
    pickUrlCand_eval_ws (by decide) (by decide) (by decide) (by decide) hv34
  have hpickI : pickUrlCand ('s' :: ['r', 'c', '=', '"'])
      (' ' :: (('s' :: ['r', 'c', '=', '"']) ++ (v ++ ['"', '>']))) =
      some ([' '], none, v) := by
    rw [if_pos ⟨hvlen, hvhead⟩] at hpickI0
    exact hpickI0
  have h0img : convGo ('<' :: 'a' :: []) "<a ".data "href=\"".data
      (stripTrailingSlash baseUrl)
      ('<' :: 'i' :: ('m' :: 'g' :: ' ' :: (('s' :: ['r', 'c', '=', '"']) ++
        (v ++ ['"', '>'])))) =
      '<' :: 'i' :: ('m' :: 'g' :: ' ' :: (('s' :: ['r', 'c', '=', '"']) ++
        (v ++ ['"', '>']))) :=
    convGo_ci_mismatch_skip (by decide)
      (all_ne_lt_parts4 (A := ['i', 'm', 'g', ' ', 's', 'r', 'c', '=', '"'])
        (B := []) (D := ['"', '>']) (by decide) (by decide) hvlt (by decide))
  have keyA : v.take 2 ≠ ['/', '/'] →
      convertRelativeUrls baseUrl ("<a href=\"".data ++ (v ++ "\">".data)) =
        "<a href=\"".data ++ (stripTrailingSlash baseUrl ++
          (collapseWsGo false v ++ "\">".data)) := by
    intro hv2
    have h1 : convGo ('<' :: ['a']) (('<' :: ['a']) ++ [' '])
        ('h' :: ['r', 'e', 'f', '=', '"']) (stripTrailingSlash baseUrl)
        (('<' :: ['a']) ++ (' ' :: (('h' :: ['r', 'e', 'f', '=', '"']) ++
          (v ++ ['"', '>'])))) =
        ('<' :: ['a']) ++ (' ' :: (('h' :: ['r', 'e', 'f', '=', '"']) ++
          (stripTrailingSlash baseUrl ++
            (collapseWsGo false v ++ ['"', '>'])))) :=
      convGo_rewrite_eval_ws (by decide) (by decide) (by decide) hnbws hpickA hv2
    show convGo "<img".data "<img ".data "src=\"".data (stripTrailingSlash baseUrl)
        (convGo ('<' :: ['a']) (('<' :: ['a']) ++ [' '])
          ('h' :: ['r', 'e', 'f', '=', '"']) (stripTrailingSlash baseUrl)
          (('<' :: ['a']) ++ (' ' :: (('h' :: ['r', 'e', 'f', '=', '"']) ++
            (v ++ ['"', '>']))))) = _
    rw [h1]
    show convGo ('<' :: 'i' :: ['m', 'g']) "<img ".data "src=\"".data
        (stripTrailingSlash baseUrl)
        ('<' :: 'a' :: (' ' :: (('h' :: ['r', 'e', 'f', '=', '"']) ++
          (stripTrailingSlash baseUrl ++
            (collapseWsGo false v ++ ['"', '>']))))) =
        '<' :: 'a' :: (' ' :: (('h' :: ['r', 'e', 'f', '=', '"']) ++
          (stripTrailingSlash baseUrl ++ (collapseWsGo false v ++ ['"', '>']))))
    exact convGo_ci_mismatch_skip (by decide)
      (all_ne_lt_parts4 (A := ['a', ' ', 'h', 'r', 'e', 'f', '=', '"'])
        (D := ['"', '>']) (by decide) hnblt hCvlt (by decide))
  have keyI : v.take 2 ≠ ['/', '/'] →
      convertRelativeUrls baseUrl ("<img src=\"".data ++ (v ++ "\">".data)) =
        "<img src=\"".data ++ (stripTrailingSlash baseUrl ++
          (collapseWsGo false v ++ "\">".data)) := by
    intro hv2
    have h1 : convGo ('<' :: ['i', 'm', 'g']) (('<' :: ['i', 'm', 'g']) ++ [' '])
        ('s' :: ['r', 'c', '=', '"']) (stripTrailingSlash baseUrl)
        (('<' :: ['i', 'm', 'g']) ++ (' ' :: (('s' :: ['r', 'c', '=', '"']) ++
          (v ++ ['"', '>'])))) =
        ('<' :: ['i', 'm', 'g']) ++ (' ' :: (('s' :: ['r', 'c', '=', '"']) ++
          (stripTrailingSlash baseUrl ++
            (collapseWsGo false v ++ ['"', '>'])))) :=
      convGo_rewrite_eval_ws (by decide) (by decide) (by decide) hnbws hpickI hv2
    show convGo "<img".data "<img ".data "src=\"".data (stripTrailingSlash baseUrl)
        (convGo ('<' :: 'a' :: []) "<a ".data "href=\"".data
          (stripTrailingSlash baseUrl)
          ('<' :: 'i' :: ('m' :: 'g' :: ' ' :: (('s' :: ['r', 'c', '=', '"']) ++
            (v ++ ['"', '>']))))) = _
    rw [h0img]
    exact h1
  have keyWsFree : (∀ c ∈ v, isJsWs c = false) → v.take 2 ≠ ['/', '/'] →
      convertRelativeUrls baseUrl ("<a href=\"".data ++ (v ++ "\">".data)) =
        "<a href=\"".data ++ (stripTrailingSlash baseUrl ++ (v ++ "\">".data)) := by
    intro hws hv2
    rw [keyA hv2, collapseWsGo_of_no_ws hws]
  have keyP : v.take 2 = ['/', '/'] →
      convertRelativeUrls baseUrl ("<a href=\"".data ++ (v ++ "\">".data)) =
        "<a href=\"".data ++ (v ++ "\">".data) ∧
      convertRelativeUrls baseUrl ("<img src=\"".data ++ (v ++ "\">".data)) =
        "<img src=\"".data ++ (v ++ "\">".data) := by
    intro hv2
    constructor
    · have h1 : convGo ('<' :: ['a']) "<a ".data ('h' :: ['r', 'e', 'f', '=', '"'])
          (stripTrailingSlash baseUrl)
          (('<' :: ['a']) ++ (' ' :: (('h' :: ['r', 'e', 'f', '=', '"']) ++
            (v ++ ['"', '>'])))) =
          ('<' :: ['a']) ++ (' ' :: (('h' :: ['r', 'e', 'f', '=', '"']) ++
            (v ++ ['"', '>']))) :=
        convGo_protocol_eval hpickA hv2
      show convGo "<img".data "<img ".data "src=\"".data (stripTrailingSlash baseUrl)
          (convGo ('<' :: ['a']) "<a ".data ('h' :: ['r', 'e', 'f', '=', '"'])
            (stripTrailingSlash baseUrl)
            (('<' :: ['a']) ++ (' ' :: (('h' :: ['r', 'e', 'f', '=', '"']) ++
              (v ++ ['"', '>']))))) = _
      rw [h1]
      show convGo ('<' :: 'i' :: ['m', 'g']) "<img ".data "src=\"".data
          (stripTrailingSlash baseUrl)
          ('<' :: 'a' :: (' ' :: (('h' :: ['r', 'e', 'f', '=', '"']) ++
            (v ++ ['"', '>'])))) =
          '<' :: 'a' :: (' ' :: (('h' :: ['r', 'e', 'f', '=', '"']) ++
            (v ++ ['"', '>'])))
      exact convGo_ci_mismatch_skip (by decide)
        (all_ne_lt_parts4 (A := ['a', ' ', 'h', 'r', 'e', 'f', '=', '"'])
          (B := []) (D := ['"', '>']) (by decide) (by decide) hvlt (by decide))
    · show convGo "<img".data "<img ".data "src=\"".data (stripTrailingSlash baseUrl)
          (convGo ('<' :: 'a' :: []) "<a ".data "href=\"".data
            (stripTrailingSlash baseUrl)
            ('<' :: 'i' :: ('m' :: 'g' :: ' ' :: (('s' :: ['r', 'c', '=', '"']) ++
              (v ++ ['"', '>']))))) = _
      rw [h0img]
      exact convGo_protocol_eval hpickI hv2
  refine ⟨keyA, keyI, keyWsFree, keyP, fun hnbne hnbhead hv2 => ?_⟩
  have hw34 : ∀ c ∈ stripTrailingSlash baseUrl ++ collapseWsGo false v,
      c.toNat ≠ 34 := by
    intro c hc
    rcases List.mem_append.mp hc with h | h
    · exact hnb34 c h
    · exact hCv34 c h
  have hwlt : ∀ c ∈ stripTrailingSlash baseUrl ++ collapseWsGo false v,
      c ≠ '<' := by
    intro c hc
    rcases List.mem_append.mp hc with h | h
    · exact hnblt c h
    · exact hCvlt c h
  have hwhead : (stripTrailingSlash baseUrl ++ collapseWsGo false v).head? ≠
      some '/' := by
    cases hnbc : stripTrailingSlash baseUrl with
    | nil => exact absurd hnbc hnbne
    | cons b bs =>
      intro h
      rw [List.cons_append, List.head?_cons, Option.some_inj] at h
      exact hnbhead (by rw [hnbc, List.head?_cons, h])
  have hpick2A0 : pickUrlCand ('h' :: (['r', 'e', 'f', '='] ++ ['"']))
      (' ' :: (('h' :: (['r', 'e', 'f', '='] ++ ['"'])) ++
        ((stripTrailingSlash baseUrl ++ collapseWsGo false v) ++ ['"', '>']))) =
      (if 2 ≤ (stripTrailingSlash baseUrl ++ collapseWsGo false v).length ∧
          (stripTrailingSlash baseUrl ++ collapseWsGo false v).head? = some '/'
       then some ([' '], none,
          stripTrailingSlash baseUrl ++ collapseWsGo false v)
       else none) :=
    pickUrlCand_eval_ws (by decide) (by decide) (by decide) (by decide) hw34
  have hpick2A : pickUrlCand ('h' :: ['r', 'e', 'f', '=', '"'])
      (' ' :: (('h' :: ['r', 'e', 'f', '=', '"']) ++
        ((stripTrailingSlash baseUrl ++ collapseWsGo false v) ++ ['"', '>']))) =
      none := by
    rw [if_neg (fun hcond => hwhead hcond.2)] at hpick2A0
    exact hpick2A0
  have hpick2I0 : pickUrlCand ('s' :: (['r', 'c', '='] ++ ['"']))
      (' ' :: (('s' :: (['r', 'c', '='] ++ ['"'])) ++
        ((stripTrailingSlash baseUrl ++ collapseWsGo false v) ++ ['"', '>']))) =
      (if 2 ≤ (stripTrailingSlash baseUrl ++ collapseWsGo false v).length ∧
          (stripTrailingSlash baseUrl ++ collapseWsGo false v).head? = some '/'
       then some ([' '], none,
          stripTrailingSlash baseUrl ++ collapseWsGo false v)
       else none) :=
    pickUrlCand_eval_ws (by decide) (by decide) (by decide) (by decide) hw34
  have hpick2I : pickUrlCand ('s' :: ['r', 'c', '=', '"'])
      (' ' :: (('s' :: ['r', 'c', '=', '"']) ++
        ((stripTrailingSlash baseUrl ++ collapseWsGo false v) ++ ['"', '>']))) =
      none := by
    rw [if_neg (fun hcond => hwhead hcond.2)] at hpick2I0
    exact hpick2I0
  constructor
  · rw [keyA hv2]
    show convGo "<img".data "<img ".data "src=\"".data (stripTrailingSlash baseUrl)
        (convGo ('<' :: ['a']) "<a ".data ('h' :: ['r', 'e', 'f', '=', '"'])
          (stripTrailingSlash baseUrl)
          (('<' :: ['a']) ++ (' ' :: (('h' :: ['r', 'e', 'f', '=', '"']) ++
            (stripTrailingSlash baseUrl ++
              (collapseWsGo false v ++ ['"', '>'])))))) =
        ('<' :: ['a']) ++ (' ' :: (('h' :: ['r', 'e', 'f', '=', '"']) ++
          (stripTrailingSlash baseUrl ++ (collapseWsGo false v ++ ['"', '>']))))
    have hassoc : stripTrailingSlash baseUrl ++
        (collapseWsGo false v ++ (['"', '>'] : List Char)) =
        (stripTrailingSlash baseUrl ++ collapseWsGo false v) ++ ['"', '>'] :=
      (List.append_assoc _ _ _).symm
    rw [hassoc]
    have h1 : convGo ('<' :: ['a']) "<a ".data ('h' :: ['r', 'e', 'f', '=', '"'])
        (stripTrailingSlash baseUrl)
        (('<' :: ['a']) ++ (' ' :: (('h' :: ['r', 'e', 'f', '=', '"']) ++
          ((stripTrailingSlash baseUrl ++ collapseWsGo false v) ++
            ['"', '>'])))) =
        ('<' :: ['a']) ++ (' ' :: (('h' :: ['r', 'e', 'f', '=', '"']) ++
          ((stripTrailingSlash baseUrl ++ collapseWsGo false v) ++
            ['"', '>']))) :=
      convGo_none_eval (by decide) (by decide) hwlt hpick2A
    rw [h1]
    show convGo ('<' :: 'i' :: ['m', 'g']) "<img ".data "src=\"".data
        (stripTrailingSlash baseUrl)
        ('<' :: 'a' :: (' ' :: (('h' :: ['r', 'e', 'f', '=', '"']) ++
          ((stripTrailingSlash baseUrl ++ collapseWsGo false v) ++
            ['"', '>'])))) =
        '<' :: 'a' :: (' ' :: (('h' :: ['r', 'e', 'f', '=', '"']) ++
          ((stripTrailingSlash baseUrl ++ collapseWsGo false v) ++ ['"', '>'])))
    exact convGo_ci_mismatch_skip (by decide)
      (all_ne_lt_parts4 (A := ['a', ' ', 'h', 'r', 'e', 'f', '=', '"'])
        (B := stripTrailingSlash baseUrl ++ collapseWsGo false v)
        (C := ['"', '>']) (D := []) (by decide) hwlt (by decide) (by decide))
  · rw [keyI hv2]
    show convGo "<img".data "<img ".data "src=\"".data (stripTrailingSlash baseUrl)
        (convGo ('<' :: 'a' :: []) "<a ".data "href=\"".data
          (stripTrailingSlash baseUrl)
          ('<' :: 'i' :: ('m' :: 'g' :: ' ' :: (('s' :: ['r', 'c', '=', '"']) ++
            (stripTrailingSlash baseUrl ++
              (collapseWsGo false v ++ ['"', '>'])))))) =
        '<' :: 'i' :: ('m' :: 'g' :: ' ' :: (('s' :: ['r', 'c', '=', '"']) ++
          (stripTrailingSlash baseUrl ++ (collapseWsGo false v ++ ['"', '>']))))
    have hassoc : stripTrailingSlash baseUrl ++
        (collapseWsGo false v ++ (['"', '>'] : List Char)) =
        (stripTrailingSlash baseUrl ++ collapseWsGo false v) ++ ['"', '>'] :=
      (List.append_assoc _ _ _).symm
    rw [hassoc]
    have h0i : convGo ('<' :: 'a' :: []) "<a ".data "href=\"".data
        (stripTrailingSlash baseUrl)
        ('<' :: 'i' :: ('m' :: 'g' :: ' ' :: (('s' :: ['r', 'c', '=', '"']) ++
          ((stripTrailingSlash baseUrl ++ collapseWsGo false v) ++
            ['"', '>'])))) =
        '<' :: 'i' :: ('m' :: 'g' :: ' ' :: (('s' :: ['r', 'c', '=', '"']) ++
          ((stripTrailingSlash baseUrl ++ collapseWsGo false v) ++
            ['"', '>']))) :=
      convGo_ci_mismatch_skip (by decide)
        (all_ne_lt_parts4 (A := ['i', 'm', 'g', ' ', 's', 'r', 'c', '=', '"'])
          (B := stripTrailingSlash baseUrl ++ collapseWsGo false v)
          (C := ['"', '>']) (D := []) (by decide) hwlt (by decide) (by decide))
    rw [h0i]
    exact convGo_none_eval (by decide) (by decide) hwlt hpick2I

theorem convertRelativeUrls_spec_witness :
    ("/x".data.take 2 ≠ ['/', '/']) ∧
    convertRelativeUrls "http://h:3000/".data
        ("<a href=\"".data ++ ("/x".data ++ "\">".data)) =
      "<a href=\"".data ++ (stripTrailingSlash "http://h:3000/".data ++
        (collapseWsGo false "/x".data ++ "\">".data)) :=
  ⟨by decide,
   (convertRelativeUrls_spec "http://h:3000/".data "/x".data (by decide)
      (by decide) (by decide) (by decide)).1 (by decide)⟩

end GMVault
